import Mathlib

/-!
Verification of the pretty-printing engine in `formatter.go` (package
`pretty`).  The Go source is embedded shallowly:

* `Typ` mirrors the part of `reflect.Type` the formatter consults
  (kind, element/field structure, `String()`, `PkgPath()`, `Name()`).
  Go types can be recursive; a `Typ` value only has to be accurate as far
  as the formatter actually descends into it (`canInline`/`canExpand`
  inspect at most two levels, `writeType` recurses through composite
  constructors), so self-referential Go types are represented by cutting
  the recursion off below that horizon.
* `Val` mirrors `reflect.Value`: a datum together with its type, its
  addressability (`addr`), and the optional `StringGo`/`String` methods of
  its method set (`Hooks`; a Go method `StringGo(isPointerType bool)` is
  represented by its two possible results).  Pointers refer to cells of an
  explicit heap, so shared and cyclic object graphs are representable.
* `printValue` is the engine.  The Go function recurses through a possibly
  cyclic heap, so the embedding takes a fuel argument and returns `none`
  when the fuel runs out; the writer is modelled as the raw string the
  function writes (the tabwriter / indent writer that post-processes tabs
  and newlines is an external collaborator, out of scope).  The depth
  counter is a plain argument (each Go printer copy has its own) while the
  `visited` map is threaded through sequentially (all printer copies share
  one Go map).
* Go's `sort.Sort` on the key slice is modelled by insertion sort
  (`sortGo`), which is the algorithm Go's `sort.Sort` runs for slices of
  fewer than 12 elements and whose result is sorted and stable with
  respect to the strict `Less` of `reflectValuesByOrder`.
* Braces inside string literals are written with the escapes `\x7b`/`\x7d`.
-/

set_option maxRecDepth 40000

namespace PrettyGo

/-- Embedding of the fragment of `reflect.Type` used by `formatter.go`.
For a struct, `pkg`, `nm` and `str` are `PkgPath()`, `Name()` and
`String()`; `fields` lists field names and (possibly truncated) field
types. -/
inductive Typ where
  | tbool : Typ
  | tint : Typ
  | tuint : Typ
  | tuint8 : Typ
  | tstring : Typ
  | tarray (n : Nat) (elem : Typ) : Typ
  | tchan (elem : Typ) : Typ
  | tmap (key elem : Typ) : Typ
  | tptr (elem : Typ) : Typ
  | tslice (elem : Typ) : Typ
  | tiface (str : String) : Typ
  | tstruct (pkg nm str : String) (fields : List (String × Typ)) : Typ
  | tfunc (str : String) : Typ
  | trawptr : Typ

/-- Decimal digits of a natural number: auxiliary recursion whose first
argument only bounds the number of digits (any bound of at least
`digits n` gives the same result, and `n + 1` always suffices). -/
def natDecAux : Nat → Nat → List Char
  | 0, _ => []
  | fuel + 1, n =>
    if n < 10 then [Char.ofNat (48 + n)]
    else natDecAux fuel (n / 10) ++ [Char.ofNat (48 + n % 10)]

/-- Decimal digits of a natural number, mirroring what Go's `fmt`
produces for `%#v` on signed integers and what `reflect.Type.String`
uses for array lengths. -/
def goNatDec (n : Nat) : String := ⟨natDecAux (n + 1) n⟩

/-- Decimal rendering of an `int64`, as Go's `%#v` prints it. -/
def goIntDec (n : Int) : String :=
  if n < 0 then "-" ++ goNatDec n.natAbs else goNatDec n.natAbs

/-- One lowercase hexadecimal digit character. -/
def hexChar (m : Nat) : Char := Char.ofNat (if m < 10 then 48 + m else 87 + m)

/-- Hexadecimal digits of a natural number: auxiliary recursion, bounded
like `natDecAux`. -/
def natHexAux : Nat → Nat → List Char
  | 0, _ => []
  | fuel + 1, n =>
    if n < 16 then [hexChar n]
    else natHexAux fuel (n / 16) ++ [hexChar (n % 16)]

/-- Lowercase hexadecimal digits of a natural number, without prefix. -/
def goNatHexCore (n : Nat) : String := ⟨natHexAux (n + 1) n⟩

/-- Hexadecimal rendering of a `uint64`, as Go's `%#v` prints unsigned
integers (`0x1`, `0xff`, ...). -/
def goNatHex (n : Nat) : String := "0x" ++ goNatHexCore n

/-- Go's conversion `string(i)` of an integer to a string: the single
rune with that code point, or U+FFFD if `i` is not a valid code point. -/
def goRuneStr (n : Nat) : String :=
  if n < 0xd800 ∨ (0xdfff < n ∧ n < 0x110000) then String.singleton (Char.ofNat n)
  else "�"

/-- The `String()` of a `Typ`, mirroring `reflect.Type.String`. -/
def typStr : Typ → String
  | .tbool => "bool"
  | .tint => "int"
  | .tuint => "uint"
  | .tuint8 => "uint8"
  | .tstring => "string"
  | .tarray n e => "[" ++ goNatDec n ++ "]" ++ typStr e
  | .tchan e => "chan " ++ typStr e
  | .tmap k e => "map[" ++ typStr k ++ "]" ++ typStr e
  | .tptr e => "*" ++ typStr e
  | .tslice e => "[]" ++ typStr e
  | .tiface s => s
  | .tstruct _ _ s _ => s
  | .tfunc s => s
  | .trawptr => "unsafe.Pointer"

/-- The `PkgPath()` of a `Typ` (empty for unnamed and builtin types). -/
def pkgPathOf : Typ → String
  | .tstruct pkg _ _ _ => pkg
  | _ => ""

/-- The `Name()` of a `Typ` (empty for unnamed composite types). -/
def nameOf : Typ → String
  | .tbool => "bool"
  | .tint => "int"
  | .tuint => "uint"
  | .tuint8 => "uint8"
  | .tstring => "string"
  | .tstruct _ nm _ _ => nm
  | .trawptr => "Pointer"
  | _ => ""

/-- Embedding of `writeType` from `formatter.go`. -/
def writeType : Typ → String
  | .tarray n e => "[" ++ goRuneStr n ++ "]" ++ writeType e
  | .tchan e => "chan " ++ writeType e
  | .tmap k e => "map[" ++ writeType k ++ "]" ++ writeType e
  | .tptr e => "*" ++ writeType e
  | .tslice e => "[]" ++ writeType e
  | t =>
    (if pkgPathOf t == "gitlab.nethead.at/symflower/symflower/model/ast"
        ∨ pkgPathOf t == "gitlab.nethead.at/symflower/symflower/model/errors"
     then "model" else "") ++ typStr t

/-- Embedding of the `neverInlinedTypeNames` map from `formatter.go`. -/
def neverInlinedTypeNames (s : String) : Bool :=
  s == "gitlab.nethead.at/symflower/symflower/model/metrics.Symbol"

/-- Embedding of `canExpand` from `formatter.go`. -/
def canExpand : Typ → Bool
  | .tmap _ _ => true
  | .tstruct _ _ _ _ => true
  | .tiface _ => true
  | .tarray _ _ => true
  | .tslice _ => true
  | .tptr _ => true
  | _ => false

/-- Embedding of `canInline` from `formatter.go`. -/
def canInline (t : Typ) : Bool :=
  if neverInlinedTypeNames (pkgPathOf t ++ "." ++ nameOf t) then false
  else
    match t with
    | .tmap _ e => !canExpand e
    | .tstruct _ _ _ fields => fields.all fun f => !canExpand f.2
    | .tiface _ => false
    | .tarray _ e => !canExpand e
    | .tslice e => !canExpand e
    | .tptr _ => false
    | .tchan _ => false
    | .tfunc _ => false
    | .trawptr => false
    | _ => true

/-- Embedding of `labelType` from `formatter.go`. -/
def labelType : Typ → Bool
  | .tarray _ _ => true
  | .tiface _ => true
  | .tmap _ _ => true
  | .tslice _ => true
  | .tstruct _ _ _ _ => true
  | _ => false

/-- The immediate child types a reader of the spec's inlining rule would
consult: the fields of a Record, the value type of a Mapping, the element
type of a Sequence. -/
def childTypes : Typ → List Typ
  | .tmap _ e => [e]
  | .tstruct _ _ _ fields => fields.map Prod.snd
  | .tarray _ e => [e]
  | .tslice e => [e]
  | _ => []

/-- Types that `canInline` rejects outright because of their own kind,
independently of any children: Union, Reference, Channel, Function and
RawPointer kinds. -/
def selfNonInlinable : Typ → Bool
  | .tiface _ => true
  | .tptr _ => true
  | .tchan _ => true
  | .tfunc _ => true
  | .trawptr => true
  | _ => false

/-- Modelled from the spec: the spec's own definition of child
expandability for the inlining rule ("a child can expand exactly when it
is a Record, a Mapping, a Union, a Sequence-of-expandable (a sequence
whose element type can itself expand), or a Reference").  Stated here
only to compare it against `canExpand` from the source. -/
def canExpandSpec : Typ → Bool
  | .tmap _ _ => true
  | .tstruct _ _ _ _ => true
  | .tiface _ => true
  | .tarray _ e => canExpandSpec e
  | .tslice e => canExpandSpec e
  | .tptr _ => true
  | _ => false

/-- The optional methods of a value's method set that `printValue` and
`stringValue` look up by name.  A present `sgo` models a method
`StringGo(isPointerType bool) string` that returns one valid result:
`sgo.1` is its result for `true`, `sgo.2` for `false`.  A present `sstr`
models a method `String() string` and its result. -/
structure Hooks where
  sgo : Option (String × String)
  sstr : Option String
  deriving DecidableEq

/-- A `Hooks` value for the common case of a value with neither method. -/
def noHooks : Hooks := ⟨none, none⟩

/-- Embedding of the fragment of `reflect.Value` that `printValue`
consults.  `vstruct` carries its type (which lists the field names and
static field types), its address when the value is addressable, and the
dynamic field values in declaration order.  `vptr` and `vslice`/`vmap`
distinguish nil from non-nil.  Pointers name heap cells. -/
inductive Val where
  | vinvalid : Val
  | vbool (b : Bool) : Val
  | vint (n : Int) : Val
  | vuint (t : Typ) (n : Nat) : Val
  | vstr (s : String) : Val
  | vstruct (t : Typ) (addr : Option Nat) (hooks : Hooks) (fields : List Val) : Val
  | varr (len : Nat) (elem : Typ) (elems : List Val) : Val
  | vslice (elem : Typ) (nilSlice : Bool) (elems : List Val) : Val
  | vmap (key elem : Typ) (nilMap : Bool) (entries : List (Val × Val)) : Val
  | vptr (elem : Typ) (hooks : Hooks) (addr : Option Nat) : Val
  | viface (t : Typ) (inner : Option Val) : Val

/-- The `reflect.Type` of a value. -/
def typeOf : Val → Typ
  | .vinvalid => .tiface "<invalid>"
  | .vbool _ => .tbool
  | .vint _ => .tint
  | .vuint t _ => t
  | .vstr _ => .tstring
  | .vstruct t _ _ _ => t
  | .varr n e _ => .tarray n e
  | .vslice e _ _ => .tslice e
  | .vmap k e _ _ => .tmap k e
  | .vptr e _ _ => .tptr e
  | .viface t _ => t

mutual

/-- Structural equality of embedded types. -/
def typBeq : Typ → Typ → Bool
  | .tbool, .tbool => true
  | .tint, .tint => true
  | .tuint, .tuint => true
  | .tuint8, .tuint8 => true
  | .tstring, .tstring => true
  | .tarray n e, .tarray m d => n == m && typBeq e d
  | .tchan e, .tchan d => typBeq e d
  | .tmap k e, .tmap l d => typBeq k l && typBeq e d
  | .tptr e, .tptr d => typBeq e d
  | .tslice e, .tslice d => typBeq e d
  | .tiface s, .tiface u => s == u
  | .tstruct p n s f, .tstruct q m u g => p == q && n == m && s == u && fieldTypListBeq f g
  | .tfunc s, .tfunc u => s == u
  | .trawptr, .trawptr => true
  | _, _ => false

/-- Pointwise `typBeq` on field lists. -/
def fieldTypListBeq : List (String × Typ) → List (String × Typ) → Bool
  | [], [] => true
  | (n, t) :: r, (m, u) :: s => n == m && typBeq t u && fieldTypListBeq r s
  | _, _ => false

end

mutual

/-- Structural equality of embedded values, playing the role of Go's key
equality in `v.MapIndex(k)`. -/
def valBeq : Val → Val → Bool
  | .vinvalid, .vinvalid => true
  | .vbool a, .vbool b => a == b
  | .vint a, .vint b => a == b
  | .vuint t a, .vuint u b => typBeq t u && a == b
  | .vstr a, .vstr b => a == b
  | .vstruct t a h f, .vstruct u b i g =>
    typBeq t u && a == b && h == i && valListBeq f g
  | .varr n e f, .varr m d g => n == m && typBeq e d && valListBeq f g
  | .vslice e n f, .vslice d m g => typBeq e d && n == m && valListBeq f g
  | .vmap k e n f, .vmap l d m g =>
    typBeq k l && typBeq e d && n == m && entryListBeq f g
  | .vptr e h a, .vptr d i b => typBeq e d && h == i && a == b
  | .viface t none, .viface u none => typBeq t u
  | .viface t (some a), .viface u (some b) => typBeq t u && valBeq a b
  | _, _ => false

/-- Pointwise `valBeq` on lists. -/
def valListBeq : List Val → List Val → Bool
  | [], [] => true
  | a :: r, b :: s => valBeq a b && valListBeq r s
  | _, _ => false

/-- Pointwise `valBeq` on entry lists. -/
def entryListBeq : List (Val × Val) → List (Val × Val) → Bool
  | [], [] => true
  | (k, v) :: r, (l, w) :: s => valBeq k l && valBeq v w && entryListBeq r s
  | _, _ => false

end

/-- Embedding of `stringValue` from `formatter.go`: the result of a
`String` method when the value has one, otherwise `reflect.Value.String`,
which is the contents for a text value and the placeholder
`"<T Value>"` for every other kind. -/
def strMethodOf : Val → Option String
  | .vstruct _ _ h _ => h.sstr
  | .vptr _ h _ => h.sstr
  | _ => none

/-- Embedding of `stringValue` from `formatter.go` (see `strMethodOf`). -/
def stringValue (v : Val) : String :=
  match strMethodOf v with
  | some s => s
  | none =>
    match v with
    | .vstr s => s
    | _ => "<" ++ typStr (typeOf v) ++ " Value>"

/-- Lexicographic strict comparison of char lists by code point.  Go
compares strings byte-wise; on the UTF-8 encodings Go strings hold,
byte-wise order and code-point order coincide. -/
def charListLt : List Char → List Char → Bool
  | [], [] => false
  | [], _ :: _ => true
  | _ :: _, [] => false
  | a :: as, b :: bs => a.toNat < b.toNat || (a == b && charListLt as bs)

/-- Embedding of `reflectValuesByOrder.Less` from `formatter.go`:
`si < sj` on the ordering strings (the two-sided `if` in the source is
equivalent to the strict comparison). -/
def lessVal (a b : Val) : Bool :=
  charListLt (stringValue a).data (stringValue b).data

/-- One step of the insertion sort modelling `sort.Sort`: insert `x`,
which arrives after the already sorted `acc`, before the first element
that `x` is strictly `Less` than.  This is where Go's
`insertionSort` (run by `sort.Sort` for fewer than 12 elements) puts it:
`x` bubbles left exactly past the elements it is strictly less than. -/
def insGo : List Val → Val → List Val
  | [], x => [x]
  | y :: ys, x => if lessVal x y then x :: y :: ys else y :: insGo ys x

/-- Embedding of `sort.Sort(reflectValuesByOrder(keys))`. -/
def sortGo (l : List Val) : List Val := l.foldl insGo []

mutual

/-- Modelled from the spec: the helper `Nonzero` is part of this
repository but its defining file is not among the given sources (only its
call sites in `formatter.go` are).  The spec describes it as the test for
"fields/entries equal to their type's zero value", so a value is nonzero
exactly when it differs from the zero value of its type: `false`, `0`,
`""`, a nil slice/map/pointer/interface, and a struct or array all of
whose components are zero, are the zero values. -/
def Nonzero : Val → Bool
  | .vinvalid => false
  | .vbool b => b
  | .vint n => !(n == 0)
  | .vuint _ n => !(n == 0)
  | .vstr s => !(s == "")
  | .vstruct _ _ _ fields => anyNonzero fields
  | .varr _ _ elems => anyNonzero elems
  | .vslice _ nilS _ => !nilS
  | .vmap _ _ nilM _ => !nilM
  | .vptr _ _ a => a.isSome
  | .viface _ i => i.isSome

/-- Disjunction of `Nonzero` over a component list. -/
def anyNonzero : List Val → Bool
  | [] => false
  | v :: r => Nonzero v || anyNonzero r

end

/-- Embedding of `isNil` from `formatter.go`. -/
def isNilV : Val → Bool
  | .viface _ none => true
  | .vslice _ true _ => true
  | .vptr _ _ none => true
  | .vinvalid => true
  | _ => false

/-- Embedding of `getField` from `formatter.go`: an interface-typed field
holding a value is unwrapped to that value. -/
def getField : Val → Val
  | .viface _ (some e) => e
  | v => v

/-- The `StringGo` method of a value's method set, if any. -/
def sgoOf : Val → Option (String × String)
  | .vstruct _ _ h _ => h.sgo
  | .vptr _ h _ => h.sgo
  | _ => none

/-- Whether `v.Type().Kind() == reflect.Pointer`. -/
def isPtrKind : Val → Bool
  | .vptr _ _ _ => true
  | _ => false

/-- Whether a type's `Kind()` is `reflect.Interface`. -/
def isIfaceKind : Typ → Bool
  | .tiface _ => true
  | _ => false

/-- Whether a type's `Kind()` is `reflect.Uint8`. -/
def isUint8Kind : Typ → Bool
  | .tuint8 => true
  | _ => false


/-- Quotation of one byte (or ASCII code point) the way `strconv.Quote`
escapes it: quote and backslash get a backslash, printable ASCII stays,
the seven control escapes apply, and everything else becomes a `\x`
escape.  This matches `strconv.Quote` for byte values below 0x80 and for
bytes of invalid UTF-8 sequences, which are the only inputs quoted in
this development (printable non-ASCII runes would stay verbatim in Go and
do not occur here). -/
def quoteByte (b : Nat) : String :=
  if b == 34 then "\\\""
  else if b == 92 then "\\\\"
  else if 0x20 ≤ b && b ≤ 0x7e then String.singleton (Char.ofNat b)
  else if b == 7 then "\\a"
  else if b == 8 then "\\b"
  else if b == 12 then "\\f"
  else if b == 10 then "\\n"
  else if b == 13 then "\\r"
  else if b == 9 then "\\t"
  else if b == 11 then "\\v"
  else "\\x" ++ String.singleton (hexChar (b / 16)) ++ String.singleton (hexChar (b % 16))

/-- Embedding of `strconv.Quote(string(bytes))` (see `quoteByte`). -/
def goQuoteBytes (bs : List Nat) : String :=
  "\"" ++ String.join (bs.map quoteByte) ++ "\""

/-- Embedding of `strconv.Quote` on a string (see `quoteByte`). -/
def goQuoteStr (s : String) : String :=
  "\"" ++ String.join (s.data.map fun c => quoteByte c.toNat) ++ "\""

/-- Embedding of `printer.fmtString` from `formatter.go`. -/
def fmtString (s : String) (quote : Bool) : String :=
  if quote then goQuoteStr s else s

/-- Embedding of `printer.printInline` from `formatter.go`, applied to
the already formatted `%#v` text of the scalar. -/
def printInline (t : Typ) (x : String) (showType : Bool) : String :=
  if showType then writeType t ++ "(" ++ x ++ ")" else x

/-- Whether a byte is a UTF-8 continuation byte. -/
def isContByte (b : Nat) : Bool := 0x80 ≤ b && b ≤ 0xbf

/-- Embedding of `utf8.Valid`: whether a byte sequence is entirely made
of well-formed UTF-8 encodings (shortest form, no surrogates, at most
U+10FFFF). -/
def utf8Valid : List Nat → Bool
  | [] => true
  | b :: r =>
    if b < 0x80 then utf8Valid r
    else if 0xc2 ≤ b && b ≤ 0xdf then
      match r with
      | c :: r2 => isContByte c && utf8Valid r2
      | _ => false
    else if b == 0xe0 then
      match r with
      | c :: d :: r2 => (0xa0 ≤ c && c ≤ 0xbf) && isContByte d && utf8Valid r2
      | _ => false
    else if (0xe1 ≤ b && b ≤ 0xec) || b == 0xee || b == 0xef then
      match r with
      | c :: d :: r2 => isContByte c && isContByte d && utf8Valid r2
      | _ => false
    else if b == 0xed then
      match r with
      | c :: d :: r2 => (0x80 ≤ c && c ≤ 0x9f) && isContByte d && utf8Valid r2
      | _ => false
    else if b == 0xf0 then
      match r with
      | c :: d :: e :: r2 => (0x90 ≤ c && c ≤ 0xbf) && isContByte d && isContByte e && utf8Valid r2
      | _ => false
    else if 0xf1 ≤ b && b ≤ 0xf3 then
      match r with
      | c :: d :: e :: r2 => isContByte c && isContByte d && isContByte e && utf8Valid r2
      | _ => false
    else if b == 0xf4 then
      match r with
      | c :: d :: e :: r2 => (0x80 ≤ c && c ≤ 0x8f) && isContByte d && isContByte e && utf8Valid r2
      | _ => false
    else false

/-- The byte contents of a byte sequence, Go's `v.Bytes()`: the numeric
values of the `uint8` elements. -/
def bytesOf : List Val → List Nat
  | [] => []
  | .vuint _ n :: r => n :: bytesOf r
  | _ :: r => 0 :: bytesOf r

/-- The visited map of `printValue`: `visit{v uintptr; typ reflect.Type}`
keys (a type is identified by its `String()`) mapped to the depth at
which the node was last entered. -/
def VisMap : Type := List ((Nat × String) × Nat)

/-- Lookup in the visited map. -/
def visLookup (vis : VisMap) (k : Nat × String) : Option Nat :=
  match vis with
  | [] => none
  | (k', d) :: r => if k' = k then some d else visLookup r k

/-- Insertion (or overwrite) in the visited map, Go's
`p.visited[vis] = p.depth`. -/
def visInsert (vis : VisMap) (k : Nat × String) (d : Nat) : VisMap :=
  match vis with
  | [] => [(k, d)]
  | (k', d') :: r => if k' = k then (k, d) :: r else (k', d') :: visInsert r k d

/-- The process-wide switch `ConvertErrorStringObject` at its default. -/
def convertErrorStringObject : Bool := false

/-- The field values of a struct value. -/
def fieldsOfVal : Val → List Val
  | .vstruct _ _ _ f => f
  | _ => []

/-- The declared fields of a struct type. -/
def structFieldTyps : Typ → List (String × Typ)
  | .tstruct _ _ _ f => f
  | _ => []

/-- Embedding of `v.FieldByName(nm)` on a struct value. -/
def fieldByName (t : Typ) (fields : List Val) (nm : String) : Option Val :=
  match t, fields with
  | .tstruct p q s ((n, _ft) :: tr), fv :: vr =>
    if n == nm then some fv else fieldByName (.tstruct p q s tr) vr nm
  | _, _ => none

/-- Embedding of `v.MapIndex(k)`: the value stored under key `k`. -/
def mapIndex (entries : List (Val × Val)) (k : Val) : Option Val :=
  match entries with
  | [] => none
  | (k', v) :: r => if valBeq k' k then some v else mapIndex r k

mutual

/-- Embedding of `printer.printValue` from `formatter.go`.  `fuel` bounds
the recursion (Go recurses through a possibly cyclic heap); `none` means
the fuel ran out.  The returned string is everything the call writes, and
the returned map is the shared `visited` map after the call.  Branches of
the source that are unreachable because `isNil` already returned (the nil
slice, nil pointer and nil interface arms of the kind switch) are kept,
marked unreachable. -/
def printValue (fuel : Nat) (heap : List (Nat × Val)) (lazy : Bool) (v : Val)
    (showType quote : Bool) (depth : Nat) (vis : VisMap) : Option (String × VisMap) :=
  match fuel with
  | 0 => none
  | fuel + 1 =>
    if isNilV v then some ("nil", vis)
    else
      match sgoOf v with
      | some sg => some (fmtString (if isPtrKind v then sg.1 else sg.2) false, vis)
      | none =>
        match v with
        | .vbool b => some (printInline .tbool (if b then "true" else "false") showType, vis)
        | .vint n => some (printInline .tint (goIntDec n) showType, vis)
        | .vuint t n => some (printInline t (goNatHex n) showType, vis)
        | .vstr s => some (fmtString s quote, vis)
        | .vmap kT vT nilM entries =>
          if nilM then some ("nil", vis)
          else
            let t := Typ.tmap kT vT
            let pre := if showType then writeType t else ""
            if Nonzero v then
              let expand := !canInline t
              let keys := sortGo (entries.map Prod.fst)
              match printEntries fuel heap lazy entries keys vT expand 0 entries.length depth vis with
              | some (body, vis') =>
                some (pre ++ "\x7b" ++ (if expand then "\n" else "") ++ body ++ "\x7d", vis')
              | none => none
            else some (pre ++ "\x7b" ++ "\x7d", vis)
        | .vstruct t addr _ fields =>
          match (match addr with
                 | some a =>
                   match visLookup vis (a, typStr t) with
                   | some vd =>
                     if vd < depth && 40 < depth then (true, vis)
                     else (false, visInsert vis (a, typStr t) depth)
                   | none => (false, visInsert vis (a, typStr t) depth)
                 | none => (false, vis)) with
          | (true, vis0) =>
            some (fmtString (typStr t ++ "\x7b(CYCLIC REFERENCE)\x7d") false, vis0)
          | (false, vis0) =>
            let pre := if showType then writeType t else ""
            if Nonzero v then
              let expand := !canInline t
              match printFields fuel heap lazy (structFieldTyps t) fields expand 0
                  (structFieldTyps t).length depth vis0 with
              | some (body, vis') =>
                some (pre ++ "\x7b" ++ (if expand then "\n" else "") ++ body ++ "\x7d", vis')
              | none => none
            else some (pre ++ "\x7b" ++ "\x7d", vis0)
        | .varr len elemT elems =>
          let t := Typ.tarray len elemT
          let pre := if showType then writeType t else ""
          printSeqBody fuel heap lazy t elemT elems pre depth vis
        | .vslice elemT nilS elems =>
          let t := Typ.tslice elemT
          let pre := if showType then writeType t else ""
          if nilS && showType then some (pre ++ "(nil)", vis)
          else if nilS then some (pre ++ "nil", vis)
          else printSeqBody fuel heap lazy t elemT elems pre depth vis
        | .vptr _elemT _ (some a) =>
          match heap.lookup a with
          | none => none
          | some e =>
            if convertErrorStringObject && pkgPathOf (typeOf e) == "errors"
                && nameOf (typeOf e) == "errorString" then
              match fieldByName (typeOf e) (fieldsOfVal e) "s" with
              | some sv =>
                match printValue fuel heap lazy sv false true depth vis with
                | some (s, vis') => some ("errors.New(" ++ s ++ ")", vis')
                | none => none
              | none => none
            else
              match printValue fuel heap lazy e true true (depth + 1) vis with
              | some (s, vis') => some ("&" ++ s, vis')
              | none => none
        | .vptr elemT _ none =>
          some ("(" ++ typStr (Typ.tptr elemT) ++ ")(nil)", vis)
        | .viface _ (some e) => printValue fuel heap lazy e showType true (depth + 1) vis
        | .viface _ none => some ("nil", vis)
        | .vinvalid => some ("nil", vis)

termination_by structural fuel

/-- The shared tail of the `reflect.Array, reflect.Slice` case of
`printValue`: the valid-text byte-sequence form, otherwise the braced
element list, followed for byte sequences by the quoted raw form in a
comment. -/
def printSeqBody (fuel : Nat) (heap : List (Nat × Val)) (lazy : Bool) (t elemT : Typ)
    (elems : List Val) (pre : String) (depth : Nat) (vis : VisMap) :
    Option (String × VisMap) :=
  match fuel with
  | 0 => none
  | fuel + 1 =>
    if isUint8Kind elemT && utf8Valid (bytesOf elems) then
      some (pre ++ "(" ++ goQuoteBytes (bytesOf elems) ++ ")", vis)
    else
      let expand := !canInline t
      match printElems fuel heap lazy elems elemT expand 0 elems.length depth vis with
      | some (body, vis') =>
        let out := pre ++ "\x7b" ++ (if expand then "\n" else "") ++ body ++ "\x7d"
        some ((if isUint8Kind elemT
               then out ++ " " ++ "/* " ++ goQuoteBytes (bytesOf elems) ++ " */"
               else out), vis')
      | none => none

termination_by structural fuel

/-- The field loop of the `reflect.Struct` case of `printValue`. -/
def printFields (fuel : Nat) (heap : List (Nat × Val)) (lazy : Bool)
    (tfs : List (String × Typ)) (vfs : List Val) (expand : Bool) (i n : Nat)
    (depth : Nat) (vis : VisMap) : Option (String × VisMap) :=
  match fuel with
  | 0 => none
  | fuel + 1 =>
    match tfs, vfs with
    | [], [] => some ("", vis)
    | (nm, ft) :: tr, fv :: vr =>
      if lazy && !Nonzero fv then
        printFields fuel heap lazy tr vr expand (i + 1) n depth vis
      else
        let namePart := if nm == "" then "" else nm ++ ":" ++ (if expand then "\t" else "")
        let stis := if nm == "" then true else labelType ft
        match printValue fuel heap lazy (getField fv) stis true depth vis with
        | some (s, vis1) =>
          match printFields fuel heap lazy tr vr expand (i + 1) n depth vis1 with
          | some (rs, vis2) =>
            some (namePart ++ s
                  ++ (if expand then ",\n" else if i < n - 1 then ", " else "") ++ rs, vis2)
          | none => none
        | none => none
    | _, _ => none

termination_by structural fuel

/-- The element loop of the `reflect.Array, reflect.Slice` case of
`printValue`. -/
def printElems (fuel : Nat) (heap : List (Nat × Val)) (lazy : Bool) (elems : List Val)
    (elemT : Typ) (expand : Bool) (i n : Nat) (depth : Nat) (vis : VisMap) :
    Option (String × VisMap) :=
  match fuel with
  | 0 => none
  | fuel + 1 =>
    match elems with
    | [] => some ("", vis)
    | e :: rest =>
      match printValue fuel heap lazy e (isIfaceKind elemT) true depth vis with
      | some (s, vis1) =>
        match printElems fuel heap lazy rest elemT expand (i + 1) n depth vis1 with
        | some (rs, vis2) =>
          some (s ++ (if expand then ",\n" else if i < n - 1 then ", " else "") ++ rs, vis2)
        | none => none
      | none => none

termination_by structural fuel

/-- The key loop of the `reflect.Map` case of `printValue`, iterating the
sorted keys and looking each value up with `MapIndex`. -/
def printEntries (fuel : Nat) (heap : List (Nat × Val)) (lazy : Bool)
    (entries : List (Val × Val)) (keys : List Val) (vT : Typ) (expand : Bool) (i n : Nat)
    (depth : Nat) (vis : VisMap) : Option (String × VisMap) :=
  match fuel with
  | 0 => none
  | fuel + 1 =>
    match keys with
    | [] => some ("", vis)
    | k :: rest =>
      match mapIndex entries k with
      | none => none
      | some mv =>
        match printValue fuel heap lazy k false true depth vis with
        | some (ks, vis1) =>
          match printValue fuel heap lazy mv (isIfaceKind vT) true depth vis1 with
          | some (vs, vis2) =>
            match printEntries fuel heap lazy entries rest vT expand (i + 1) n depth vis2 with
            | some (rs, vis3) =>
              some (ks ++ ":" ++ (if expand then "\t" else "") ++ vs
                    ++ (if expand then ",\n" else if i < n - 1 then ", " else "")
                    ++ rs, vis3)
            | none => none
          | none => none
        | none => none
termination_by structural fuel

end

/-- One top-level render through `Formatter` (`quote = true`,
`lazy = false`): a fresh printer with an empty visited map and depth 0,
calling `printValue(v, showType = true, quote = true)`.  Only the
resulting text. -/
def renderTop (fuel : Nat) (heap : List (Nat × Val)) (v : Val) : Option String :=
  (printValue fuel heap false v true true 0 []).map Prod.fst

/-- One top-level render, also returning the final visited map. -/
def renderState (fuel : Nat) (heap : List (Nat × Val)) (v : Val) :
    Option (String × VisMap) :=
  printValue fuel heap false v true true 0 []

/-- Whether the first list is a prefix of the second. -/
def listPrefixOf : List Char → List Char → Bool
  | [], _ => true
  | _ :: _, [] => false
  | a :: as, b :: bs => a == b && listPrefixOf as bs

/-- Whether the first list occurs as a contiguous infix of the second. -/
def listInfixOf (pat : List Char) : List Char → Bool
  | [] => listPrefixOf pat []
  | b :: t => listPrefixOf pat (b :: t) || listInfixOf pat t

/-- Whether `pat` occurs as a contiguous substring of `hay`. -/
def containsS (hay pat : String) : Bool := listInfixOf pat.data hay.data

/-- The Go type `A` of `TestCycle`: `type A struct { A *A }` (the
self-reference in the field type is cut off below the depth the
formatter inspects). -/
def tAhead : Typ := .tstruct "pretty" "A" "pretty.A" []

/-- The type `A` with its field list. -/
def tA : Typ := .tstruct "pretty" "A" "pretty.A" [("A", .tptr tAhead)]

/-- The value `v = &A{}; v.A = v` of `TestCycle`: cell 0 holds the
struct whose single pointer field points back to cell 0. -/
def cycleValA : Val := .vstruct tA (some 0) noHooks [.vptr tAhead noHooks (some 0)]

/-- The heap for the self-referential `A`. -/
def cycleHeapA : List (Nat × Val) := [(0, cycleValA)]

/-- The rendered value: the pointer `v` itself. -/
def cycleTopA : Val := .vptr tA noHooks (some 0)

/-- A self-referential record with an extra scalar field,
`type B struct { x int; next *B }` with `x = 7` and `next` pointing back
to the record itself; used to observe that the rest of the graph keeps
rendering around the cycle marker. -/
def tBhead : Typ := .tstruct "pretty" "B" "pretty.B" []

/-- The type `B` with its field list. -/
def tB : Typ := .tstruct "pretty" "B" "pretty.B" [("x", .tint), ("next", .tptr tBhead)]

/-- The self-referential `B` record at cell 0. -/
def cycleValB : Val := .vstruct tB (some 0) noHooks [.vint 7, .vptr tBhead noHooks (some 0)]

/-- The heap for the self-referential `B`. -/
def cycleHeapB : List (Nat × Val) := [(0, cycleValB)]

/-- The rendered value: the pointer to the `B` record. -/
def cycleTopB : Val := .vptr tB noHooks (some 0)

/-- The map value `map[int]int{1:1, 2:2}` with its keys enumerated by
`MapKeys` in the order 1, 2. -/
def mapVal12 : Val := .vmap .tint .tint false [(.vint 1, .vint 1), (.vint 2, .vint 2)]

/-- The same map value with its keys enumerated in the order 2, 1 (Go
map iteration order is unspecified and varies between runs). -/
def mapVal21 : Val := .vmap .tint .tint false [(.vint 2, .vint 2), (.vint 1, .vint 1)]

/-- A typed nil pointer whose pointee type has a `StringGo` method in
its method set returning "X". -/
def hookNilPtr : Val :=
  .vptr (.tstruct "pretty" "H" "pretty.H" []) ⟨some ("X", "X"), none⟩ none

/-- Record type with a single record field, for observing the depth at
which nested composites are entered. -/
def tInner : Typ := .tstruct "pretty" "Inner" "pretty.Inner" [("a", .tint)]

/-- The outer record type. -/
def tOuter : Typ := .tstruct "pretty" "Outer" "pretty.Outer" [("in", tInner)]

/-- The inner record value, addressable at cell address 2 (a field of an
addressable struct is addressable). -/
def vInner : Val := .vstruct tInner (some 2) noHooks [.vint 3]

/-- The outer record value at heap cell 1. -/
def vOuter : Val := .vstruct tOuter (some 1) noHooks [vInner]

/-- The heap holding the outer record. -/
def nestHeap : List (Nat × Val) := [(1, vOuter)]

/-- The rendered value: a pointer to the outer record. -/
def nestTop : Val := .vptr tOuter noHooks (some 1)

/-- C1: for the self-referential Record reached through a Reference — a
struct whose single pointer field points back to the struct itself, and
one with an additional scalar field — one top-level render terminates
(it returns a result within finite fuel instead of recursing without
bound), the output contains the literal marker "(CYCLIC REFERENCE)" for
the repeated node, no error is raised (the engine has no error outcome
other than non-termination), and the rest of the graph keeps rendering
normally: the scalar field `x:	7` of every copy and all closing braces
appear around the marker. -/
theorem prettyC1_cyclic_record_render_terminates_with_marker :
    (renderTop 600 cycleHeapA cycleTopA).isSome = true
    ∧ containsS ((renderTop 600 cycleHeapA cycleTopA).getD "") "(CYCLIC REFERENCE)" = true
    ∧ (renderTop 900 cycleHeapB cycleTopB).isSome = true
    ∧ containsS ((renderTop 900 cycleHeapB cycleTopB).getD "") "(CYCLIC REFERENCE)" = true
    ∧ containsS ((renderTop 900 cycleHeapB cycleTopB).getD "") "x:\t7" = true
    ∧ ((renderTop 900 cycleHeapB cycleTopB).getD "").takeRight 1 = "\x7d" :=
  ⟨rfl, rfl, rfl, rfl, rfl, rfl⟩

/-- C5 (failing part and correct part evaluated on the code): a nil
Sequence renders as "nil" even when `showType` is true, because `isNil`
returns before the slice case is reached — the `Type(nil)` branch of the
source is unreachable, contradicting the spec and the `TestGoSyntax`
fixture `{[]int(nil), "[]int(nil)"}`; with `showType` false it renders
"nil" as claimed, and a nil Mapping renders "nil" regardless of
`showType` as claimed. -/
theorem prettyC5_nil_sequence_renders_bare_nil :
    renderTop 9 [] (.vslice .tint true []) = some "nil"
    ∧ (printValue 9 [] false (.vslice .tint true []) false true 0 []).map Prod.fst
      = some "nil"
    ∧ renderTop 9 [] (.vmap .tint .tint true []) = some "nil"
    ∧ (printValue 9 [] false (.vmap .tint .tint true []) false true 0 []).map Prod.fst
      = some "nil"
    ∧ some "nil" ≠ some ("[]int" ++ "(nil)") :=
  ⟨rfl, rfl, rfl, rfl, by decide⟩

/-- C7 (evaluated on the code at the test fixture's input): the bytes
1, 2, 3 are valid UTF-8, so `[]byte{1,2,3}` takes the quoted-text branch
and renders `[]uint8("\x01\x02\x03")`, not the hex-element form
`[]uint8{0x1, 0x2, 0x3}` that the `TestGoSyntax` fixture and the spec
expect; and the trailing raw-literal comment is produced for byte
sequences that are not valid text (after the hex elements), not for the
valid-text ones. -/
theorem prettyC7_byte_sequence_branches :
    utf8Valid [1, 2, 3] = true
    ∧ renderTop 9 [] (.vslice .tuint8 false
        [.vuint .tuint8 1, .vuint .tuint8 2, .vuint .tuint8 3])
      = some "[]uint8(\"\\x01\\x02\\x03\")"
    ∧ some "[]uint8(\"\\x01\\x02\\x03\")" ≠ some "[]uint8\x7b0x1, 0x2, 0x3\x7d"
    ∧ utf8Valid [255, 254] = false
    ∧ renderTop 9 [] (.vslice .tuint8 false [.vuint .tuint8 255, .vuint .tuint8 254])
      = some "[]uint8\x7b0xff, 0xfe\x7d /* \"\\xff\\xfe\" */" :=
  ⟨rfl, rfl, by decide, rfl, rfl⟩

/-- C10: `writeType` emits an array length as the single rune with that
code point (`string(t.Len())`), not as decimal digits; in particular the
type prefix of a zero-length int array contains a NUL character between
the brackets, and the rendering of `[0]int{}` is `"[\x00]int{}"`, not
the `"[0]int{}"` the `TestGoSyntax` fixture lists. -/
theorem prettyC10_array_length_written_as_rune :
    (∀ (n : Nat) (e : Typ), writeType (.tarray n e) = "[" ++ goRuneStr n ++ "]" ++ writeType e)
    ∧ goRuneStr 0 = "\x00"
    ∧ renderTop 9 [] (.varr 0 .tint []) = some "[\x00]int\x7b\x7d"
    ∧ "[\x00]int\x7b\x7d" ≠ "[0]int\x7b\x7d" :=
  ⟨fun n e => rfl, rfl, rfl, by decide⟩

/-- C3 counterexample: one map value — `map[int]int{1:1, 2:2}` — whose
two possible `MapKeys` enumeration orders are permutations of each other
(the same map, no mutation between runs) renders to different bytes,
because all `int` keys have the same ordering string and the unstable
enumeration order survives the sort; so two renders of the same value
are not always byte-identical. -/
theorem prettyC3_determinism_counterexample :
    List.Perm [((Val.vint 2), (Val.vint 2)), ((Val.vint 1), (Val.vint 1))]
      [((Val.vint 1), (Val.vint 1)), ((Val.vint 2), (Val.vint 2))]
    ∧ renderTop 9 [] mapVal12 = some "map[int]int\x7b1:1, 2:2\x7d"
    ∧ renderTop 9 [] mapVal21 = some "map[int]int\x7b2:2, 1:1\x7d"
    ∧ renderTop 9 [] mapVal12 ≠ renderTop 9 [] mapVal21 :=
  ⟨List.Perm.swap _ _ _, rfl, rfl, by decide⟩

/-- C4 counterexample: the ordering string of the key `1` is the
reflect placeholder `"<int Value>"`, not its textual form `"1"`, so all
int keys tie; with the keys enumerated in order 2, 1 the map
`map[int]int{1:1, 2:2}` prints 2 before 1, contradicting "a mapping with
keys 1 and 2 always prints 1 before 2". -/
theorem prettyC4_key_order_counterexample :
    stringValue (.vint 1) = "<int Value>"
    ∧ stringValue (.vint 1) ≠ "1"
    ∧ stringValue (.vint 1) = stringValue (.vint 2)
    ∧ renderTop 9 [] mapVal21 = some "map[int]int\x7b2:2, 1:1\x7d" :=
  ⟨rfl, by decide, rfl, rfl⟩

/-- C8 counterexample: a typed nil Reference whose type exposes the
`StringGo` capability (returning "X") renders as "nil", not as "X": the
nil check of `printValue` runs before the hook lookup, so the hook does
not take precedence over every other rendering path. -/
theorem prettyC8_hook_counterexample :
    renderTop 9 [] hookNilPtr = some "nil" ∧ some "nil" ≠ some "X" :=
  ⟨rfl, by decide⟩

/-- C9 counterexample: rendering a Reference to a record that contains a
nested record leaves both records in the Visit record at the same depth
1 — the descent into the nested composite did not increase the depth
counter, contradicting "depth increases strictly on each descent into
... a nested composite". -/
theorem prettyC9_depth_counterexample :
    (renderState 30 nestHeap nestTop).map Prod.snd
      = some [((1, "pretty.Outer"), 1), ((2, "pretty.Inner"), 1)]
    ∧ visLookup [((1, "pretty.Outer"), 1), ((2, "pretty.Inner"), 1)] (2, "pretty.Inner")
      = visLookup [((1, "pretty.Outer"), 1), ((2, "pretty.Inner"), 1)] (1, "pretty.Outer") :=
  ⟨rfl, rfl⟩

/-- A record type whose single field is a sequence of non-expandable
elements: `type S struct { xs []int }`. -/
def tSliceField : Typ := .tstruct "pretty" "S" "pretty.S" [("xs", .tslice .tint)]

/-- C6 counterexample: for the record type `struct { xs []int }`, whose
qualified name is not in the denylist and whose only immediate child is a
Sequence of non-expandable elements (so, by the claim's definition of
child expandability, no child can expand), `canInline` nevertheless
returns `false`: the source's `canExpand` treats every Sequence as
expandable, not only sequences of expandable elements. -/
theorem prettyC6_canInline_counterexample :
    canInline tSliceField = false
    ∧ neverInlinedTypeNames (pkgPathOf tSliceField ++ "." ++ nameOf tSliceField) = false
    ∧ (childTypes tSliceField).all (fun c => !canExpandSpec c) = true
    ∧ canExpandSpec (.tslice .tint) = false
    ∧ canExpand (.tslice .tint) = true := by
  decide

/-- C6 amended: `canInline t` is true exactly when the qualified type
name is not in the never-inline denylist, no immediate child of `t` (its
fields for a Record, its value type for a Mapping, its element type for
a Sequence) satisfies the source's `canExpand` — which holds for every
Record, Mapping, Union, Sequence (of any element type) and Reference —
and `t` itself is not of Union, Reference, Channel, Function or
RawPointer kind. -/
theorem prettyC6_canInline_characterization (t : Typ) :
    canInline t = true ↔
      (neverInlinedTypeNames (pkgPathOf t ++ "." ++ nameOf t) = false
       ∧ (∀ c ∈ childTypes t, canExpand c = false)
       ∧ selfNonInlinable t = false) := by
  cases t with
  | tstruct pkg nm str fields =>
    by_cases h : neverInlinedTypeNames (pkgPathOf (.tstruct pkg nm str fields)
        ++ "." ++ nameOf (.tstruct pkg nm str fields)) = true
    · simp [canInline, h, selfNonInlinable]
    · rw [Bool.not_eq_true] at h
      simp only [canInline, pkgPathOf, nameOf] at h ⊢
      simp [h, childTypes, selfNonInlinable, List.all_eq_true]
      constructor
      · intro hh c x hx
        exact hh x c hx
      · intro hh a b hb
        exact hh b a hb
  | tmap k e => by_cases h : canExpand e = true <;>
      simp_all [canInline, childTypes, selfNonInlinable, neverInlinedTypeNames]
  | tarray n e => by_cases h : canExpand e = true <;>
      simp_all [canInline, childTypes, selfNonInlinable, neverInlinedTypeNames]
  | tslice e => by_cases h : canExpand e = true <;>
      simp_all [canInline, childTypes, selfNonInlinable, neverInlinedTypeNames]
  | tiface s => simp [canInline, childTypes, selfNonInlinable, neverInlinedTypeNames]
  | tptr e => simp [canInline, childTypes, selfNonInlinable, neverInlinedTypeNames]
  | tchan e => simp [canInline, childTypes, selfNonInlinable, neverInlinedTypeNames]
  | tfunc s => by_cases h : s = "" <;>
      simp_all [canInline, childTypes, selfNonInlinable, neverInlinedTypeNames]
  | _ => decide
/-- C8 amended: for every non-nil value whose method set exposes
`StringGo` (returning one valid text result), `printValue` writes that
text verbatim — unquoted, regardless of the `quote` flag — and returns
with the visited map unchanged: structural traversal, layout planning
and cycle registration are all skipped for the value and its would-be
children.  The hook takes precedence over every rendering path except
the nil short-circuit. -/
theorem prettyC8_hook_precedence_amended
    (fuel : Nat) (heap : List (Nat × Val)) (lazy : Bool) (v : Val)
    (showType quote : Bool) (depth : Nat) (vis : VisMap) (sp sv : String)
    (hnil : isNilV v = false) (hsgo : sgoOf v = some (sp, sv)) :
    printValue (fuel + 1) heap lazy v showType quote depth vis
      = some ((if isPtrKind v then sp else sv), vis) := by
  simp [printValue, hnil, hsgo, fmtString]

/-- An addressable record whose type would expand across multiple lines
(it holds a Reference field into the heap) but whose method set exposes
`StringGo` returning `H(7)`. -/
def hookVal : Val :=
  .vstruct (.tstruct "pretty" "H" "pretty.H" [("p", .tptr .tint)])
    (some 3) ⟨some ("ptrH(7)", "H(7)"), none⟩ [.vptr .tint noHooks (some 9)]

/-- Witness for the amended C8 theorem: the hooked record renders as its
hook text (here with `isPointerType = false`), the visited map stays
empty, and no traversal happens — the heap does not even contain the
cell its Reference field points to. -/
theorem prettyC8_hook_precedence_amended_witness :
    printValue 4 [] false hookVal true true 0 [] = some ("H(7)", []) :=
  prettyC8_hook_precedence_amended 3 [] false hookVal true true 0 [] "ptrH(7)" "H(7)"
    rfl rfl
/-- Lookup after insertion in the visited map. -/
theorem visLookup_visInsert (vis : VisMap) (k k' : Nat × String) (d : Nat) :
    visLookup (visInsert vis k d) k' = if k' = k then some d else visLookup vis k' := by
  induction vis with
  | nil =>
    by_cases h : k' = k <;> simp_all [visInsert, visLookup, eq_comm]
  | cons p r ih =>
    obtain ⟨pk, pd⟩ := p
    by_cases hp : pk = k
    · subst hp
      by_cases h : k' = pk <;> simp [visInsert, visLookup, h, eq_comm]
    · by_cases h : pk = k'
      · subst h
        simp [visInsert, visLookup, hp, ih]
      · simp [visInsert, visLookup, hp, h, ih]

/-- Insertion preserves presence in the visited map. -/
theorem visLookup_isSome_visInsert (vis : VisMap) (k k' : Nat × String) (d : Nat)
    (h : (visLookup vis k').isSome = true) :
    (visLookup (visInsert vis k d) k').isSome = true := by
  rw [visLookup_visInsert]
  by_cases hk : k' = k <;> simp [hk, h]
/-- The visited map only grows during a render: every key present in the
map passed to any of the mutually recursive rendering functions is still
present in the map they return. -/
theorem visitedDomainMonoAll :
    ∀ fuel : Nat,
      (∀ heap lazy v st q d vis out vis',
        printValue fuel heap lazy v st q d vis = some (out, vis') →
        ∀ k, (visLookup vis k).isSome = true → (visLookup vis' k).isSome = true)
      ∧ (∀ heap lazy t eT elems pre d vis out vis',
        printSeqBody fuel heap lazy t eT elems pre d vis = some (out, vis') →
        ∀ k, (visLookup vis k).isSome = true → (visLookup vis' k).isSome = true)
      ∧ (∀ heap lazy tfs vfs ex i n d vis out vis',
        printFields fuel heap lazy tfs vfs ex i n d vis = some (out, vis') →
        ∀ k, (visLookup vis k).isSome = true → (visLookup vis' k).isSome = true)
      ∧ (∀ heap lazy elems eT ex i n d vis out vis',
        printElems fuel heap lazy elems eT ex i n d vis = some (out, vis') →
        ∀ k, (visLookup vis k).isSome = true → (visLookup vis' k).isSome = true)
      ∧ (∀ heap lazy entries keys vT ex i n d vis out vis',
        printEntries fuel heap lazy entries keys vT ex i n d vis = some (out, vis') →
        ∀ k, (visLookup vis k).isSome = true → (visLookup vis' k).isSome = true) := by
  intro fuel
  induction fuel with
  | zero =>
    refine ⟨?_, ?_, ?_, ?_, ?_⟩
    · intro heap lazy v st q d vis out vis' h
      exact Option.noConfusion h
    · intro heap lazy t eT elems pre d vis out vis' h
      exact Option.noConfusion h
    · intro heap lazy tfs vfs ex i n d vis out vis' h
      exact Option.noConfusion h
    · intro heap lazy elems eT ex i n d vis out vis' h
      exact Option.noConfusion h
    · intro heap lazy entries keys vT ex i n d vis out vis' h
      exact Option.noConfusion h
  | succ fuel ih =>
    obtain ⟨ihV, ihS, ihF, ihE, ihN⟩ := ih
    refine ⟨?_, ?_, ?_, ?_, ?_⟩
    · -- printValue
      intro heap lazy v st q d vis out vis' h k hk
      simp only [printValue] at h
      split at h
      · cases h; exact hk
      · split at h
        · cases h; exact hk
        · split at h
          · cases h; exact hk
          · cases h; exact hk
          · cases h; exact hk
          · cases h; exact hk
          · -- vmap
            split at h
            · cases h; exact hk
            · split at h
              · split at h
                · rename_i body vis2 heq
                  cases h
                  exact ihN _ _ _ _ _ _ _ _ _ _ _ _ heq k hk
                · exact Option.noConfusion h
              · cases h; exact hk
          · -- vstruct
            rename_i t addr hooks fields
            split at h
            · -- cyclic marker branch
              rename_i vis0 heq
              cases h
              split at heq
              · split at heq
                · split at heq
                  · cases heq; exact hk
                  · simp at heq
                · simp at heq
              · simp at heq
            · -- normal branch
              rename_i vis0 heq
              have hk0 : (visLookup vis0 k).isSome = true := by
                split at heq
                · split at heq
                  · split at heq
                    · simp at heq
                    · cases heq
                      exact visLookup_isSome_visInsert _ _ _ _ hk
                  · cases heq
                    exact visLookup_isSome_visInsert _ _ _ _ hk
                · cases heq; exact hk
              split at h
              · split at h
                · rename_i body vis2 heq2
                  cases h
                  exact ihF _ _ _ _ _ _ _ _ _ _ _ heq2 k hk0
                · exact Option.noConfusion h
              · cases h; exact hk0
          · -- varr
            exact ihS _ _ _ _ _ _ _ _ _ _ h k hk
          · -- vslice
            split at h
            · cases h; exact hk
            · split at h
              · cases h; exact hk
              · exact ihS _ _ _ _ _ _ _ _ _ _ h k hk
          · -- vptr (some a)
            split at h
            · exact Option.noConfusion h
            · rename_i e heq
              simp only [convertErrorStringObject, Bool.false_and, Bool.false_eq_true,
                if_false] at h
              split at h
              · rename_i s vis2 heq2
                cases h
                exact ihV _ _ _ _ _ _ _ _ _ heq2 k hk
              · exact Option.noConfusion h
          · -- vptr none
            cases h; exact hk
          · -- viface (some e)
            exact ihV _ _ _ _ _ _ _ _ _ h k hk
          · -- viface none
            cases h; exact hk
          · -- vinvalid
            cases h; exact hk
    · -- printSeqBody
      intro heap lazy t eT elems pre d vis out vis' h k hk
      simp only [printSeqBody] at h
      split at h
      · cases h; exact hk
      · split at h
        · rename_i body vis2 heq
          cases h
          exact ihE _ _ _ _ _ _ _ _ _ _ _ heq k hk
        · exact Option.noConfusion h
    · -- printFields
      intro heap lazy tfs vfs ex i n d vis out vis' h k hk
      simp only [printFields] at h
      split at h
      · cases h; exact hk
      · split at h
        · exact ihF _ _ _ _ _ _ _ _ _ _ _ h k hk
        · split at h
          · rename_i s vis1 heq1
            split at h
            · rename_i rs vis2 heq2
              cases h
              exact ihF _ _ _ _ _ _ _ _ _ _ _ heq2 k
                (ihV _ _ _ _ _ _ _ _ _ heq1 k hk)
            · exact Option.noConfusion h
          · exact Option.noConfusion h
      · exact Option.noConfusion h
    · -- printElems
      intro heap lazy elems eT ex i n d vis out vis' h k hk
      simp only [printElems] at h
      split at h
      · cases h; exact hk
      · split at h
        · rename_i s vis1 heq1
          split at h
          · rename_i rs vis2 heq2
            cases h
            exact ihE _ _ _ _ _ _ _ _ _ _ _ heq2 k
              (ihV _ _ _ _ _ _ _ _ _ heq1 k hk)
          · exact Option.noConfusion h
        · exact Option.noConfusion h
    · -- printEntries
      intro heap lazy entries keys vT ex i n d vis out vis' h k hk
      simp only [printEntries] at h
      split at h
      · cases h; exact hk
      · split at h
        · exact Option.noConfusion h
        · rename_i mv heq0
          split at h
          · rename_i ks vis1 heq1
            split at h
            · rename_i vs vis2 heq2
              split at h
              · rename_i rs vis3 heq3
                cases h
                exact ihN _ _ _ _ _ _ _ _ _ _ _ _ heq3 k
                  (ihV _ _ _ _ _ _ _ _ _ heq2 k
                    (ihV _ _ _ _ _ _ _ _ _ heq1 k hk))
              · exact Option.noConfusion h
            · exact Option.noConfusion h
          · exact Option.noConfusion h
/-- C9 amended: during one top-level render the depth counter increases
strictly on each descent into a Reference (the pointer case renders its
target at `depth + 1`) and into a Union (the interface case renders the
held value at `depth + 1`) — but not into nested composites, which are
rendered at the parent's depth; the Visit record grows monotonically for
the duration of the call (no key is ever removed); and the state is
reset between independent calls: a top-level render starts from depth 0
and an empty Visit record by construction. -/
theorem prettyC9_depth_and_visited_amended :
    (∀ (fuel : Nat) (heap : List (Nat × Val)) (lazy : Bool) (eT : Typ) (a : Nat)
       (st q : Bool) (d : Nat) (vis : VisMap),
      printValue (fuel + 1) heap lazy (.vptr eT noHooks (some a)) st q d vis
        = (heap.lookup a).bind fun e =>
            (printValue fuel heap lazy e true true (d + 1) vis).map fun r =>
              ("&" ++ r.1, r.2))
    ∧ (∀ (fuel : Nat) (heap : List (Nat × Val)) (lazy : Bool) (t : Typ) (e : Val)
         (st q : Bool) (d : Nat) (vis : VisMap),
      printValue (fuel + 1) heap lazy (.viface t (some e)) st q d vis
        = printValue fuel heap lazy e st true (d + 1) vis)
    ∧ (∀ (fuel : Nat) (heap : List (Nat × Val)) (lazy : Bool) (v : Val)
         (st q : Bool) (d : Nat) (vis : VisMap) (out : String) (vis' : VisMap),
      printValue fuel heap lazy v st q d vis = some (out, vis') →
      ∀ k, (visLookup vis k).isSome = true → (visLookup vis' k).isSome = true)
    ∧ (∀ (fuel : Nat) (heap : List (Nat × Val)) (v : Val),
      renderState fuel heap v = printValue fuel heap false v true true 0 []) := by
  refine ⟨?_, ?_, ?_, ?_⟩
  · intro fuel heap lazy eT a st q d vis
    simp only [printValue, isNilV, sgoOf, noHooks, convertErrorStringObject,
      Bool.false_and, Bool.false_eq_true, if_false]
    cases hl : heap.lookup a with
    | none => simp [hl]
    | some e =>
      cases hp : printValue fuel heap lazy e true true (d + 1) vis with
      | none => simp [hl, hp]
      | some r =>
        obtain ⟨s, vis1⟩ := r
        simp [hl, hp]
  · intro fuel heap lazy t e st q d vis
    simp [printValue, isNilV, sgoOf]
  · intro fuel
    exact (visitedDomainMonoAll fuel).1
  · intro fuel heap v
    rfl

/-- Witness for the amended C9 theorem: applied at a concrete render of
a record into a nonempty initial Visit record, the key already present
is still present afterwards. -/
theorem prettyC9_depth_and_visited_amended_witness :
    (visLookup [((9, "q"), 0), ((2, "pretty.Inner"), 1)] (9, "q")).isSome = true :=
  prettyC9_depth_and_visited_amended.2.2.1 9 [] false vInner true true 1
    [((9, "q"), 0)] "pretty.Inner\x7ba:3\x7d" [((9, "q"), 0), ((2, "pretty.Inner"), 1)]
    (by rfl) (9, "q") (by rfl)
/-- Characters with equal code points are equal. -/
theorem charEq_of_toNat_eq (a b : Char) (h : a.toNat = b.toNat) : a = b :=
  Char.eq_of_val_eq (UInt32.eq_of_val_eq (Fin.eq_of_val_eq h))

/-- Strings with equal character lists are equal. -/
theorem stringEq_of_dataEq : ∀ (s t : String), s.data = t.data → s = t
  | ⟨_⟩, ⟨_⟩, h => by cases h; rfl

/-- The lexicographic comparison is asymmetric. -/
theorem charListLt_asymm : ∀ as bs, charListLt as bs = true → charListLt bs as = false := by
  intro as
  induction as with
  | nil =>
    intro bs h
    cases bs with
    | nil => simp [charListLt] at h
    | cons b bs => simp [charListLt]
  | cons a as ih =>
    intro bs h
    cases bs with
    | nil => simp [charListLt] at h
    | cons b bs =>
      simp only [charListLt, Bool.or_eq_true, Bool.and_eq_true, beq_iff_eq,
        decide_eq_true_eq] at h
      simp only [charListLt, Bool.or_eq_false_iff, Bool.and_eq_false_iff,
        decide_eq_false_iff_not, beq_eq_false_iff_ne]
      rcases h with h | ⟨rfl, h⟩
      · refine ⟨by omega, Or.inl fun he => ?_⟩
        subst he
        omega
      · exact ⟨by omega, Or.inr (ih _ h)⟩

/-- The lexicographic comparison is transitive. -/
theorem charListLt_trans :
    ∀ as bs cs, charListLt as bs = true → charListLt bs cs = true →
      charListLt as cs = true := by
  intro as
  induction as with
  | nil =>
    intro bs cs h1 h2
    cases bs with
    | nil => simp [charListLt] at h1
    | cons b bs =>
      cases cs with
      | nil => simp [charListLt] at h2
      | cons c cs => simp [charListLt]
  | cons a as ih =>
    intro bs cs h1 h2
    cases bs with
    | nil => simp [charListLt] at h1
    | cons b bs =>
      cases cs with
      | nil => simp [charListLt] at h2
      | cons c cs =>
        simp only [charListLt, Bool.or_eq_true, Bool.and_eq_true, beq_iff_eq,
          decide_eq_true_eq] at h1 h2 ⊢
        rcases h1 with h1 | ⟨rfl, h1⟩
        · rcases h2 with h2 | ⟨rfl, h2⟩
          · exact Or.inl (Nat.lt_trans h1 h2)
          · exact Or.inl h1
        · rcases h2 with h2 | ⟨rfl, h2⟩
          · exact Or.inl h2
          · exact Or.inr ⟨rfl, ih _ _ h1 h2⟩

/-- Two lists neither of which is below the other are equal. -/
theorem charListLt_conn :
    ∀ as bs, charListLt as bs = false → charListLt bs as = false → as = bs := by
  intro as
  induction as with
  | nil =>
    intro bs h1 _
    cases bs with
    | nil => rfl
    | cons b bs => simp [charListLt] at h1
  | cons a as ih =>
    intro bs h1 h2
    cases bs with
    | nil => simp [charListLt] at h2
    | cons b bs =>
      simp only [charListLt, Bool.or_eq_false_iff, Bool.and_eq_false_iff,
        decide_eq_false_iff_not, beq_eq_false_iff_ne] at h1 h2
      obtain ⟨hn1, hr1⟩ := h1
      obtain ⟨hn2, hr2⟩ := h2
      have hab : a = b := charEq_of_toNat_eq a b (by omega)
      subst hab
      rcases hr1 with hr1 | hr1
      · exact absurd rfl hr1
      · rcases hr2 with hr2 | hr2
        · exact absurd rfl hr2
        · rw [ih bs hr1 hr2]
/-- Inserting an element is a permutation of prepending it. -/
theorem insGo_perm (acc : List Val) (x : Val) : (insGo acc x).Perm (x :: acc) := by
  induction acc with
  | nil => exact List.Perm.refl _
  | cons y ys ih =>
    by_cases h : lessVal x y = true
    · simp only [insGo, if_pos h]
      exact List.Perm.refl _
    · simp only [insGo, if_neg h]
      exact (ih.cons y).trans (List.Perm.swap x y ys)

/-- The sorted key slice is a permutation of the enumerated keys. -/
theorem sortGo_perm (l : List Val) : (sortGo l).Perm l := by
  suffices h : ∀ (r acc : List Val), (r.foldl insGo acc).Perm (acc ++ r) by
    simpa using h l []
  intro r
  induction r with
  | nil => intro acc; simp
  | cons x rr ih =>
    intro acc
    simp only [List.foldl_cons]
    refine (ih (insGo acc x)).trans ?_
    exact (((insGo_perm acc x).append_right rr).trans List.perm_middle.symm)

/-- Insertion preserves sortedness with respect to "the later element is
not `Less` than the earlier one". -/
theorem insGo_pairwise (x : Val) :
    ∀ acc : List Val, acc.Pairwise (fun a b => lessVal b a = false) →
      (insGo acc x).Pairwise (fun a b => lessVal b a = false) := by
  intro acc
  induction acc with
  | nil => intro _; simp [insGo]
  | cons y ys ih =>
    intro h
    rw [List.pairwise_cons] at h
    obtain ⟨hy, hys⟩ := h
    by_cases hxy : lessVal x y = true
    · simp only [insGo, if_pos hxy]
      rw [List.pairwise_cons]
      constructor
      · intro z hz
        rcases List.mem_cons.mp hz with rfl | hz2
        · exact charListLt_asymm _ _ hxy
        · by_contra hzx
          rw [Bool.not_eq_false] at hzx
          have hzy : lessVal z y = true := charListLt_trans _ _ _ hzx hxy
          rw [hy z hz2] at hzy
          exact Bool.noConfusion hzy
      · rw [List.pairwise_cons]
        exact ⟨hy, hys⟩
    · simp only [insGo, if_neg hxy]
      rw [List.pairwise_cons]
      constructor
      · intro w hw
        rcases List.mem_cons.mp ((insGo_perm ys x).mem_iff.mp hw) with rfl | hw2
        · exact Bool.eq_false_iff.mpr hxy
        · exact hy w hw2
      · exact ih hys

/-- The sorted key slice is sorted: no later key is `Less` than an
earlier one. -/
theorem sortGo_pairwise (l : List Val) :
    (sortGo l).Pairwise (fun a b => lessVal b a = false) := by
  suffices h : ∀ (r acc : List Val), acc.Pairwise (fun a b => lessVal b a = false) →
      (r.foldl insGo acc).Pairwise (fun a b => lessVal b a = false) by
    exact h l [] (by simp)
  intro r
  induction r with
  | nil => intro acc h; simpa using h
  | cons x rr ih =>
    intro acc h
    simp only [List.foldl_cons]
    exact ih _ (insGo_pairwise x acc h)

/-- When the new element is `Less` than no element of the accumulator,
insertion appends it at the end. -/
theorem insGo_append_of_ties (x : Val) :
    ∀ acc : List Val, (∀ y ∈ acc, lessVal x y = false) → insGo acc x = acc ++ [x] := by
  intro acc
  induction acc with
  | nil => intro _; rfl
  | cons y ys ih =>
    intro h
    have hy : lessVal x y = false := h y (by simp)
    simp only [insGo, hy, Bool.false_eq_true, if_false, List.cons_append, List.cons.injEq,
      true_and]
    exact ih fun z hz => h z (by simp [hz])

/-- Keys that all tie (none `Less` than another) keep their enumeration
order: the sort is stable and moves nothing. -/
theorem sortGo_of_ties :
    ∀ l : List Val, (∀ a ∈ l, ∀ b ∈ l, lessVal a b = false) → sortGo l = l := by
  suffices h : ∀ (r acc : List Val), (∀ a ∈ r, ∀ b ∈ acc, lessVal a b = false) →
      (∀ a ∈ r, ∀ b ∈ r, lessVal a b = false) → r.foldl insGo acc = acc ++ r by
    intro l hl
    simpa using h l [] (by simp) hl
  intro r
  induction r with
  | nil => intro acc _ _; simp
  | cons x rr ih =>
    intro acc hacc hr
    simp only [List.foldl_cons]
    rw [insGo_append_of_ties x acc (fun y hy => hacc x (by simp) y hy)]
    rw [ih (acc ++ [x]) ?_ ?_]
    · simp
    · intro a ha b hb
      rcases List.mem_append.mp hb with hb | hb
      · exact hacc a (by simp [ha]) b hb
      · have hbx : b = x := by simpa using hb
        subst hbx
        exact hr a (by simp [ha]) b (by simp)
    · intro a ha b hb
      exact hr a (by simp [ha]) b (by simp [hb])
/-- C4 amended: the rendered key sequence of a non-nil Mapping is
`sortGo` of the enumerated keys, which is a permutation of them, sorted
ascending by ordering string — where the ordering string of a key is its
`String` method's result when it has one and otherwise
`reflect.Value.String`'s form, which for every non-text kind without a
`String` method is the placeholder `"<T Value>"`, not the key's natural
text form — with keys of equal ordering string kept in enumeration
order.  Integer keys all tie, so a mapping with keys 1 and 2 prints
them in whatever order the map enumerates them. -/
theorem prettyC4_key_order_amended :
    (∀ l : List Val, (sortGo l).Perm l)
    ∧ (∀ l : List Val, (sortGo l).Pairwise (fun a b => lessVal b a = false))
    ∧ (∀ l : List Val, (∀ a ∈ l, ∀ b ∈ l, lessVal a b = false) → sortGo l = l)
    ∧ stringValue (.vint 1) = "<int Value>"
    ∧ renderTop 9 [] mapVal12 = some "map[int]int\x7b1:1, 2:2\x7d"
    ∧ renderTop 9 [] mapVal21 = some "map[int]int\x7b2:2, 1:1\x7d" :=
  ⟨sortGo_perm, sortGo_pairwise, sortGo_of_ties, rfl, rfl, rfl⟩

/-- Witness for the amended C4 theorem at a concrete input: the two
integer keys 2, 1 tie, so the sort keeps them in enumeration order. -/
theorem prettyC4_key_order_amended_witness :
    sortGo [Val.vint 2, Val.vint 1] = [Val.vint 2, Val.vint 1] :=
  prettyC4_key_order_amended.2.2.1 [Val.vint 2, Val.vint 1] (by decide)

/-- C3 amended: rendering is deterministic up to the enumeration order
of mapping keys (the only unspecified input): for key sets whose
ordering strings are pairwise distinct, the sorted key sequence — and
with it the rendered text — does not depend on which permutation the map
enumerates, so two renders of such a value are byte-identical. -/
theorem prettyC3_determinism_amended :
    ∀ l1 l2 : List Val, l1.Perm l2 →
      l1.Pairwise (fun a b => stringValue a ≠ stringValue b) →
      sortGo l1 = sortGo l2 := by
  have hsym : ∀ {x y : Val}, stringValue x ≠ stringValue y → stringValue y ≠ stringValue x :=
    fun h => Ne.symm h
  have strict : ∀ l : List Val, l.Pairwise (fun a b => stringValue a ≠ stringValue b) →
      (sortGo l).Pairwise (fun a b => lessVal a b = true) := by
    intro l hd
    have h1 := sortGo_pairwise l
    have h2 : (sortGo l).Pairwise (fun a b => stringValue a ≠ stringValue b) :=
      (((sortGo_perm l).pairwise_iff hsym).mpr hd)
    refine (h1.and h2).imp ?_
    intro a b hab
    obtain ⟨hno, hne⟩ := hab
    by_contra hlt
    rw [Bool.not_eq_true] at hlt
    exact hne (stringEq_of_dataEq _ _ (charListLt_conn _ _ hlt hno))
  intro l1 l2 hperm hdist
  haveI : IsAntisymm Val (fun a b => lessVal a b = true) := by
    constructor
    intro a b h1 h2
    have h3 : lessVal b a = false := charListLt_asymm _ _ h1
    rw [h2] at h3
    exact Bool.noConfusion h3
  refine List.eq_of_perm_of_sorted (r := fun a b => lessVal a b = true) ?_ ?_ ?_
  · exact (sortGo_perm l1).trans (hperm.trans (sortGo_perm l2).symm)
  · exact strict l1 hdist
  · exact strict l2 ((hperm.pairwise_iff hsym).mp hdist)

/-- Witness for the amended C3 theorem at a concrete input: a `uint` key
and an `int` key have the distinct ordering strings `"<uint Value>"` and
`"<int Value>"`, so both enumeration orders sort identically. -/
theorem prettyC3_determinism_amended_witness :
    sortGo [Val.vuint .tuint 1, Val.vint 2] = sortGo [Val.vint 2, Val.vuint .tuint 1] :=
  prettyC3_determinism_amended _ _ (List.Perm.swap _ _ _) (by decide)
/-- Whether the capital letter Y — a character of the cycle marker
`(CYCLIC REFERENCE)` that no other output of the engine contains —
occurs in a string.  Tracking this single character suffices to show an
output cannot contain the marker. -/
def strHasY (s : String) : Bool := decide ('Y' ∈ s.data)

/-- The marker tracer on a single character. -/
theorem strHasY_singleton (c : Char) (h : c ≠ 'Y') :
    strHasY (String.singleton c) = false := by
  simp [strHasY, String.singleton, String.data_push]
  exact fun he => h he.symm

/-- The marker tracer distributes over appending. -/
theorem strHasY_append (a b : String) :
    strHasY (a ++ b) = (strHasY a || strHasY b) := by
  by_cases ha : 'Y' ∈ a.data <;> by_cases hb : 'Y' ∈ b.data <;>
    simp [strHasY, String.data_append, List.mem_append, ha, hb]

/-- The marker tracer on a conditional. -/
theorem strHasY_ite (c : Prop) [Decidable c] (s t : String) (hs : strHasY s = false)
    (ht : strHasY t = false) : strHasY (if c then s else t) = false := by
  by_cases h : c <;> simp [h, hs, ht]

/-- The code point of `Char.ofNat` at a valid code point. -/
theorem toNat_ofNat_valid (n : Nat) (hv : n.isValidChar) : (Char.ofNat n).toNat = n := by
  simp [Char.ofNat, hv, Char.ofNatAux, Char.toNat, UInt32.toNat, BitVec.toNat_ofNatLt]

/-- The code point of `Char.ofNat` at an invalid code point. -/
theorem toNat_ofNat_invalid (n : Nat) (hv : ¬n.isValidChar) :
    (Char.ofNat n).toNat = 0 := by
  simp [Char.ofNat, hv, Char.toNat, UInt32.toNat, BitVec.toNat_ofNatLt]

/-- `Char.ofNat` yields the letter Y only at code point 89. -/
theorem ofNat_ne_Y (n : Nat) (h : n ≠ 89) : Char.ofNat n ≠ 'Y' := by
  intro he
  by_cases hv : n.isValidChar
  · have h1 := toNat_ofNat_valid n hv
    rw [he] at h1
    exact h (by simpa using h1.symm)
  · have h1 := toNat_ofNat_invalid n hv
    rw [he] at h1
    simp at h1

/-- Decimal digit runs contain no Y. -/
theorem natDecAux_noY : ∀ (fuel n : Nat), 'Y' ∉ natDecAux fuel n := by
  intro fuel
  induction fuel with
  | zero => intro n; simp [natDecAux]
  | succ fuel ih =>
    intro n
    by_cases h : n < 10
    · simp only [natDecAux, if_pos h, List.mem_singleton]
      exact fun he => ofNat_ne_Y (48 + n) (by omega) he.symm
    · simp only [natDecAux, if_neg h, List.mem_append, List.mem_singleton]
      rintro (hm | hm)
      · exact ih _ hm
      · exact ofNat_ne_Y (48 + n % 10) (by omega) hm.symm

/-- `goNatDec` contains no Y. -/
theorem goNatDec_noY (n : Nat) : strHasY (goNatDec n) = false := by
  simp [goNatDec, strHasY, natDecAux_noY]

/-- `goIntDec` contains no Y. -/
theorem goIntDec_noY (n : Int) : strHasY (goIntDec n) = false := by
  unfold goIntDec
  by_cases h : n < 0
  · simp only [if_pos h, strHasY_append, goNatDec_noY, Bool.or_false]
    decide
  · simp [if_neg h, goNatDec_noY]

/-- `hexChar` is never Y. -/
theorem hexChar_ne_Y (m : Nat) : hexChar m ≠ 'Y' := by
  unfold hexChar
  by_cases h : m < 10
  · simp only [if_pos h]
    exact ofNat_ne_Y _ (by omega)
  · simp only [if_neg h]
    exact ofNat_ne_Y _ (by omega)

/-- Hexadecimal digit runs contain no Y. -/
theorem natHexAux_noY : ∀ (fuel n : Nat), 'Y' ∉ natHexAux fuel n := by
  intro fuel
  induction fuel with
  | zero => intro n; simp [natHexAux]
  | succ fuel ih =>
    intro n
    by_cases h : n < 16
    · simp only [natHexAux, if_pos h, List.mem_singleton]
      exact fun he => hexChar_ne_Y n he.symm
    · simp only [natHexAux, if_neg h, List.mem_append, List.mem_singleton]
      rintro (hm | hm)
      · exact ih _ hm
      · exact hexChar_ne_Y (n % 16) hm.symm

/-- `goNatHex` contains no Y. -/
theorem goNatHex_noY (n : Nat) : strHasY (goNatHex n) = false := by
  have h : strHasY (goNatHexCore n) = false := by
    simp [goNatHexCore, strHasY, natHexAux_noY]
  simp only [goNatHex, strHasY_append, h, Bool.or_false]
  decide

/-- `goRuneStr` contains no Y away from code point 89. -/
theorem goRuneStr_noY (n : Nat) (h : n ≠ 89) : strHasY (goRuneStr n) = false := by
  unfold goRuneStr
  split
  · exact strHasY_singleton _ (ofNat_ne_Y n h)
  · decide

/-- `quoteByte` contains no Y away from byte value 89. -/
theorem quoteByte_noY (b : Nat) (h : b ≠ 89) : strHasY (quoteByte b) = false := by
  unfold quoteByte
  split
  · decide
  · split
    · decide
    · split
      · exact strHasY_singleton _ (ofNat_ne_Y b h)
      · split
        · decide
        · split
          · decide
          · split
            · decide
            · split
              · decide
              · split
                · decide
                · split
                  · decide
                  · split
                    · decide
                    · simp only [strHasY_append]
                      simp only [strHasY_singleton _ (hexChar_ne_Y (b / 16)),
                        strHasY_singleton _ (hexChar_ne_Y (b % 16)), Bool.or_false]
                      decide
/-- The marker tracer on a joined list of Y-free strings. -/
theorem strHasY_join (l : List String) (h : ∀ s ∈ l, strHasY s = false) :
    strHasY (String.join l) = false := by
  suffices hgen : ∀ (r : List String) (acc : String), strHasY acc = false →
      (∀ s ∈ r, strHasY s = false) → strHasY (r.foldl (fun r s => r ++ s) acc) = false by
    exact hgen l "" (by decide) h
  intro r
  induction r with
  | nil => intro acc hacc _; simpa using hacc
  | cons s rr ih =>
    intro acc hacc hr
    simp only [List.foldl_cons]
    refine ih (acc ++ s) ?_ fun t ht => hr t (by simp [ht])
    simp [strHasY_append, hacc, hr s (by simp)]

/-- `goQuoteBytes` contains no Y when no byte is 89. -/
theorem goQuoteBytes_noY (bs : List Nat) (h : ∀ b ∈ bs, b ≠ 89) :
    strHasY (goQuoteBytes bs) = false := by
  have hj : strHasY (String.join (bs.map quoteByte)) = false := by
    refine strHasY_join _ fun s hs => ?_
    rcases List.mem_map.mp hs with ⟨b, hb, rfl⟩
    exact quoteByte_noY b (h b hb)
  simp only [goQuoteBytes, strHasY_append, hj, Bool.or_false, Bool.false_or]
  decide

/-- `goQuoteStr` contains no Y when the input does not. -/
theorem goQuoteStr_noY (s : String) (h : strHasY s = false) :
    strHasY (goQuoteStr s) = false := by
  have hj : strHasY (String.join (s.data.map fun c => quoteByte c.toNat)) = false := by
    refine strHasY_join _ fun t ht => ?_
    rcases List.mem_map.mp ht with ⟨c, hc, rfl⟩
    refine quoteByte_noY c.toNat fun he => ?_
    have hcY : c = 'Y' := charEq_of_toNat_eq c 'Y' (by simpa using he)
    subst hcY
    simp [strHasY, hc] at h
  simp only [goQuoteStr, strHasY_append, hj, Bool.or_false, Bool.false_or]
  decide

/-- `fmtString` contains no Y when the input does not. -/
theorem fmtString_noY (s : String) (q : Bool) (h : strHasY s = false) :
    strHasY (fmtString s q) = false := by
  unfold fmtString
  by_cases hq : q = true <;> simp [hq, goQuoteStr_noY s h, h]

mutual

/-- Trackers for embedded types: every string the formatter can write
out of the type (its `String()` forms, the array lengths as runes, the
field names) is free of the letter Y. -/
def yFreeTyp : Typ → Bool
  | .tarray n e => !(n == 89) && yFreeTyp e
  | .tchan e => yFreeTyp e
  | .tmap k e => yFreeTyp k && yFreeTyp e
  | .tptr e => yFreeTyp e
  | .tslice e => yFreeTyp e
  | .tiface s => !strHasY s
  | .tstruct _ _ s fields => !strHasY s && yFreeTfs fields
  | .tfunc s => !strHasY s
  | _ => true

/-- Tracker for field lists: names and field types free of Y. -/
def yFreeTfs : List (String × Typ) → Bool
  | [] => true
  | (nm, t) :: r => !strHasY nm && yFreeTyp t && yFreeTfs r

end

/-- Tracker for method hooks: `StringGo` results free of Y. -/
def yFreeHooks (h : Hooks) : Bool :=
  match h.sgo with
  | none => true
  | some (a, b) => !strHasY a && !strHasY b

mutual

/-- Trackers for embedded values: every string the formatter can write
out of the value (text contents, hook results, types, and — because a
byte sequence can be printed as raw quoted text — byte values 89) is
free of the letter Y. -/
def yFreeVal : Val → Bool
  | .vinvalid => true
  | .vbool _ => true
  | .vint _ => true
  | .vuint t n => yFreeTyp t && !(n == 89)
  | .vstr s => !strHasY s
  | .vstruct t _ hooks fields => yFreeTyp t && yFreeHooks hooks && yFreeVals fields
  | .varr len e elems => !(len == 89) && yFreeTyp e && yFreeVals elems
  | .vslice e _ elems => yFreeTyp e && yFreeVals elems
  | .vmap k e _ entries => yFreeTyp k && yFreeTyp e && yFreeEntries entries
  | .vptr e hooks _ => yFreeTyp e && yFreeHooks hooks
  | .viface t inner =>
    yFreeTyp t && (match inner with | none => true | some v => yFreeVal v)

/-- Tracker for value lists. -/
def yFreeVals : List Val → Bool
  | [] => true
  | v :: r => yFreeVal v && yFreeVals r

/-- Tracker for entry lists. -/
def yFreeEntries : List (Val × Val) → Bool
  | [] => true
  | (k, v) :: r => yFreeVal k && yFreeVal v && yFreeEntries r

end

/-- Tracker for heaps. -/
def yFreeHeap : List (Nat × Val) → Bool
  | [] => true
  | (_, v) :: r => yFreeVal v && yFreeHeap r

/-- `typStr` contains no Y on Y-free types. -/
theorem typStr_noY : ∀ (t : Typ), yFreeTyp t = true → strHasY (typStr t) = false
  | .tbool, _ => by decide
  | .tint, _ => by decide
  | .tuint, _ => by decide
  | .tuint8, _ => by decide
  | .tstring, _ => by decide
  | .trawptr, _ => by decide
  | .tarray n e, h => by
    simp only [yFreeTyp, Bool.and_eq_true] at h
    simp only [typStr, strHasY_append, goNatDec_noY, typStr_noY e h.2, Bool.or_false]
    decide
  | .tchan e, h => by
    simp only [yFreeTyp] at h
    simp only [typStr, strHasY_append, typStr_noY e h, Bool.or_false]
    decide
  | .tmap k e, h => by
    simp only [yFreeTyp, Bool.and_eq_true] at h
    simp only [typStr, strHasY_append, typStr_noY k h.1, typStr_noY e h.2, Bool.or_false]
    decide
  | .tptr e, h => by
    simp only [yFreeTyp] at h
    simp only [typStr, strHasY_append, typStr_noY e h, Bool.or_false]
    decide
  | .tslice e, h => by
    simp only [yFreeTyp] at h
    simp only [typStr, strHasY_append, typStr_noY e h, Bool.or_false]
    decide
  | .tiface s, h => by
    simp only [yFreeTyp, Bool.not_eq_true'] at h
    simpa [typStr] using h
  | .tstruct pkg nm s fields, h => by
    simp only [yFreeTyp, Bool.and_eq_true, Bool.not_eq_true'] at h
    simpa [typStr] using h.1
  | .tfunc s, h => by
    simp only [yFreeTyp, Bool.not_eq_true'] at h
    simpa [typStr] using h

/-- `writeType` contains no Y on Y-free types. -/
theorem writeType_noY : ∀ (t : Typ), yFreeTyp t = true → strHasY (writeType t) = false
  | .tarray n e, h => by
    simp only [yFreeTyp, Bool.and_eq_true, Bool.not_eq_true'] at h
    have hn : n ≠ 89 := by
      intro he
      subst he
      simp at h
    simp only [writeType, strHasY_append, goRuneStr_noY n hn, writeType_noY e h.2,
      Bool.or_false]
    decide
  | .tchan e, h => by
    simp only [yFreeTyp] at h
    simp only [writeType, strHasY_append, writeType_noY e h, Bool.or_false]
    decide
  | .tmap k e, h => by
    simp only [yFreeTyp, Bool.and_eq_true] at h
    simp only [writeType, strHasY_append, writeType_noY k h.1, writeType_noY e h.2,
      Bool.or_false]
    decide
  | .tptr e, h => by
    simp only [yFreeTyp] at h
    simp only [writeType, strHasY_append, writeType_noY e h, Bool.or_false]
    decide
  | .tslice e, h => by
    simp only [yFreeTyp] at h
    simp only [writeType, strHasY_append, writeType_noY e h, Bool.or_false]
    decide
  | .tbool, _h => by decide
  | .tint, _h => by decide
  | .tuint, _h => by decide
  | .tuint8, _h => by decide
  | .tstring, _h => by decide
  | .trawptr, _h => by decide
  | .tiface s, h => by
    simp only [writeType, strHasY_append]
    rw [typStr_noY _ h]
    simp only [Bool.or_false]
    apply strHasY_ite <;> decide
  | .tstruct pkg nm s fields, h => by
    simp only [writeType, strHasY_append]
    rw [typStr_noY _ h]
    simp only [Bool.or_false]
    apply strHasY_ite <;> decide
  | .tfunc s, h => by
    simp only [writeType, strHasY_append]
    rw [typStr_noY _ h]
    simp only [Bool.or_false]
    apply strHasY_ite <;> decide

/-- Heap cells of a Y-free heap are Y-free. -/
theorem yFreeHeap_lookup :
    ∀ (heap : List (Nat × Val)) (a : Nat) (e : Val), yFreeHeap heap = true →
      heap.lookup a = some e → yFreeVal e = true := by
  intro heap
  induction heap with
  | nil => intro a e _ hl; simp [List.lookup] at hl
  | cons p r ih =>
    intro a e hh hl
    obtain ⟨b, v⟩ := p
    simp only [yFreeHeap, Bool.and_eq_true] at hh
    simp only [List.lookup] at hl
    split at hl
    · cases hl; exact hh.1
    · exact ih a e hh.2 hl

/-- Members of a Y-free value list are Y-free. -/
theorem yFreeVals_mem :
    ∀ (l : List Val) (v : Val), yFreeVals l = true → v ∈ l → yFreeVal v = true := by
  intro l
  induction l with
  | nil => intro v _ hm; simp at hm
  | cons w r ih =>
    intro v hl hm
    simp only [yFreeVals, Bool.and_eq_true] at hl
    rcases List.mem_cons.mp hm with rfl | hm
    · exact hl.1
    · exact ih v hl.2 hm

/-- A list of Y-free values is a Y-free list. -/
theorem yFreeVals_of_mem :
    ∀ l : List Val, (∀ v ∈ l, yFreeVal v = true) → yFreeVals l = true := by
  intro l
  induction l with
  | nil => intro _; rfl
  | cons w r ih =>
    intro h
    simp only [yFreeVals, Bool.and_eq_true]
    exact ⟨h w (by simp), ih fun v hv => h v (by simp [hv])⟩

/-- The keys of a Y-free entry list are Y-free. -/
theorem yFreeEntries_keys :
    ∀ (entries : List (Val × Val)), yFreeEntries entries = true →
      yFreeVals (entries.map Prod.fst) = true := by
  intro entries
  induction entries with
  | nil => intro _; rfl
  | cons p r ih =>
    intro h
    obtain ⟨k, v⟩ := p
    simp only [yFreeEntries, Bool.and_eq_true] at h
    simp only [List.map_cons, yFreeVals, Bool.and_eq_true]
    exact ⟨h.1.1, ih h.2⟩

/-- `MapIndex` results of a Y-free entry list are Y-free. -/
theorem yFree_mapIndex :
    ∀ (entries : List (Val × Val)) (k mv : Val), yFreeEntries entries = true →
      mapIndex entries k = some mv → yFreeVal mv = true := by
  intro entries
  induction entries with
  | nil => intro k mv _ hl; simp [mapIndex] at hl
  | cons p r ih =>
    intro k mv h hl
    obtain ⟨k', v⟩ := p
    simp only [yFreeEntries, Bool.and_eq_true] at h
    simp only [mapIndex] at hl
    split at hl
    · cases hl; exact h.1.2
    · exact ih k mv h.2 hl

/-- `getField` preserves Y-freeness. -/
theorem yFree_getField (v : Val) (h : yFreeVal v = true) :
    yFreeVal (getField v) = true := by
  cases v with
  | viface t inner =>
    cases inner with
    | none => exact h
    | some e =>
      simp only [yFreeVal, Bool.and_eq_true] at h
      exact h.2
  | _ => exact h

/-- The declared fields of a Y-free struct type are Y-free. -/
theorem yFree_structFieldTyps (t : Typ) (h : yFreeTyp t = true) :
    yFreeTfs (structFieldTyps t) = true := by
  cases t with
  | tstruct pkg nm s fields =>
    simp only [yFreeTyp, Bool.and_eq_true] at h
    exact h.2
  | _ => rfl

/-- The bytes of a Y-free element list never take the value 89. -/
theorem yFree_bytesOf :
    ∀ elems : List Val, yFreeVals elems = true → ∀ b ∈ bytesOf elems, b ≠ 89 := by
  intro elems
  induction elems with
  | nil => intro _ b hb; simp [bytesOf] at hb
  | cons e r ih =>
    intro h b hb
    simp only [yFreeVals, Bool.and_eq_true] at h
    cases e with
    | vuint t n =>
      simp only [bytesOf, List.mem_cons] at hb
      rcases hb with rfl | hb
      · have := h.1
        simp only [yFreeVal, Bool.and_eq_true, Bool.not_eq_true'] at this
        simpa using this.2
      · exact ih h.2 b hb
    | _ =>
      first
      | (simp only [bytesOf, List.mem_cons] at hb
         rcases hb with rfl | hb
         · omega
         · exact ih h.2 b hb)

/-- Sorting keeps a key list Y-free. -/
theorem yFree_sortGo (l : List Val) (h : yFreeVals l = true) :
    yFreeVals (sortGo l) = true :=
  yFreeVals_of_mem _ fun v hv =>
    yFreeVals_mem l v h ((sortGo_perm l).mem_iff.mp hv)

/-- The `StringGo` results of a Y-free value are Y-free. -/
theorem yFree_sgo (v : Val) (sg : String × String) (hv : yFreeVal v = true)
    (h : sgoOf v = some sg) : strHasY sg.1 = false ∧ strHasY sg.2 = false := by
  cases v with
  | vstruct t a hooks fields =>
    simp only [sgoOf] at h
    simp only [yFreeVal, Bool.and_eq_true] at hv
    have hh := hv.1.2
    simp only [yFreeHooks, h, Bool.and_eq_true, Bool.not_eq_true'] at hh
    exact hh
  | vptr e hooks a =>
    simp only [sgoOf] at h
    simp only [yFreeVal, Bool.and_eq_true] at hv
    have hh := hv.2
    simp only [yFreeHooks, h, Bool.and_eq_true, Bool.not_eq_true'] at hh
    exact hh
  | _ => simp [sgoOf] at h

/-- The type-prefix of a composite (the `writeType` output when
`showType` is set, nothing otherwise) is free of Y for a Y-free type. -/
theorem yFree_pre (showType : Bool) (t : Typ) (h : yFreeTyp t = true) :
    strHasY (if showType then writeType t else "") = false := by
  apply strHasY_ite
  · exact writeType_noY t h
  · decide

/-- `printInline` is free of Y for a Y-free type and scalar text. -/
theorem printInline_noY (t : Typ) (x : String) (showType : Bool)
    (ht : yFreeTyp t = true) (hx : strHasY x = false) :
    strHasY (printInline t x showType) = false := by
  unfold printInline
  apply strHasY_ite
  · simp only [strHasY_append, writeType_noY t ht, hx, Bool.or_false, Bool.false_or]
    decide
  · exact hx
/-- Separators between fields, elements and entries are free of Y. -/
theorem yFree_sep (ex : Bool) (i n : Nat) :
    strHasY (if ex then ",\n" else if i < n - 1 then ", " else "") = false := by
  apply strHasY_ite
  · decide
  · apply strHasY_ite <;> decide

/-- While the depth bound keeps every reachable struct below the cycle
threshold of 41, no output of any of the rendering functions contains
the letter Y — in particular none contains the marker
`(CYCLIC REFERENCE)` — provided the value, the heap and the keys hold no
Y of their own.  Depth only ever grows by at most one per consumed unit
of fuel, so `d + fuel ≤ 41` is preserved along every descent and the
cyclic branch, which requires `40 < depth`, can never run. -/
theorem noYAll :
    ∀ fuel : Nat,
      (∀ heap lazy v st q d vis out vis',
        yFreeHeap heap = true → yFreeVal v = true → d + fuel ≤ 41 →
        printValue fuel heap lazy v st q d vis = some (out, vis') →
        strHasY out = false)
      ∧ (∀ heap lazy t eT elems pre d vis out vis',
        yFreeHeap heap = true → yFreeVals elems = true → strHasY pre = false →
        d + fuel ≤ 41 →
        printSeqBody fuel heap lazy t eT elems pre d vis = some (out, vis') →
        strHasY out = false)
      ∧ (∀ heap lazy tfs vfs ex i n d vis out vis',
        yFreeHeap heap = true → yFreeTfs tfs = true → yFreeVals vfs = true →
        d + fuel ≤ 41 →
        printFields fuel heap lazy tfs vfs ex i n d vis = some (out, vis') →
        strHasY out = false)
      ∧ (∀ heap lazy elems eT ex i n d vis out vis',
        yFreeHeap heap = true → yFreeVals elems = true → d + fuel ≤ 41 →
        printElems fuel heap lazy elems eT ex i n d vis = some (out, vis') →
        strHasY out = false)
      ∧ (∀ heap lazy entries keys vT ex i n d vis out vis',
        yFreeHeap heap = true → yFreeEntries entries = true → yFreeVals keys = true →
        d + fuel ≤ 41 →
        printEntries fuel heap lazy entries keys vT ex i n d vis = some (out, vis') →
        strHasY out = false) := by
  intro fuel
  induction fuel with
  | zero =>
    refine ⟨?_, ?_, ?_, ?_, ?_⟩
    · intro heap lazy v st q d vis out vis' _ _ _ h
      exact Option.noConfusion h
    · intro heap lazy t eT elems pre d vis out vis' _ _ _ _ h
      exact Option.noConfusion h
    · intro heap lazy tfs vfs ex i n d vis out vis' _ _ _ _ h
      exact Option.noConfusion h
    · intro heap lazy elems eT ex i n d vis out vis' _ _ _ h
      exact Option.noConfusion h
    · intro heap lazy entries keys vT ex i n d vis out vis' _ _ _ _ h
      exact Option.noConfusion h
  | succ fuel ih =>
    obtain ⟨ihV, ihS, ihF, ihE, ihN⟩ := ih
    refine ⟨?_, ?_, ?_, ?_, ?_⟩
    · -- printValue
      intro heap lazy v st q d vis out vis' hh hv hb h
      simp only [printValue] at h
      split at h
      · cases h; decide
      · split at h
        · -- StringGo hook
          rename_i sg heq
          cases h
          obtain ⟨h1, h2⟩ := yFree_sgo v sg hv heq
          exact fmtString_noY _ _ (strHasY_ite _ _ _ h1 h2)
        · split at h
          · -- vbool
            cases h
            refine printInline_noY _ _ _ (by decide) ?_
            apply strHasY_ite <;> decide
          · -- vint
            cases h
            exact printInline_noY _ _ _ (by decide) (goIntDec_noY _)
          · -- vuint
            simp only [yFreeVal, Bool.and_eq_true] at hv
            cases h
            exact printInline_noY _ _ _ hv.1 (goNatHex_noY _)
          · -- vstr
            simp only [yFreeVal, Bool.not_eq_true'] at hv
            cases h
            exact fmtString_noY _ _ hv
          · -- vmap
            simp only [yFreeVal, Bool.and_eq_true] at hv
            split at h
            · cases h; decide
            · split at h
              · split at h
                · rename_i body vis2 heq
                  cases h
                  simp only [strHasY_append, Bool.or_eq_false_iff]
                  refine ⟨⟨⟨⟨?_, by decide⟩, ?_⟩, ?_⟩, by decide⟩
                  · refine yFree_pre _ _ ?_
                    simp only [yFreeTyp, Bool.and_eq_true]
                    exact hv.1
                  · apply strHasY_ite <;> decide
                  · refine ihN _ _ _ _ _ _ _ _ _ _ _ _ hh hv.2
                      (yFree_sortGo _ (yFreeEntries_keys _ hv.2)) ?_ heq
                    omega
                · exact Option.noConfusion h
              · cases h
                simp only [strHasY_append, Bool.or_eq_false_iff]
                refine ⟨⟨?_, by decide⟩, by decide⟩
                refine yFree_pre _ _ ?_
                simp only [yFreeTyp, Bool.and_eq_true]
                exact hv.1
          · -- vstruct
            simp only [yFreeVal, Bool.and_eq_true] at hv
            split at h
            · -- cyclic marker branch: impossible at this depth
              rename_i vis0 heq
              exfalso
              split at heq
              · split at heq
                · split at heq
                  · rename_i hcond
                    simp only [Bool.and_eq_true, decide_eq_true_eq] at hcond
                    omega
                  · simp at heq
                · simp at heq
              · simp at heq
            · split at h
              · split at h
                · rename_i body vis2 heq2
                  cases h
                  simp only [strHasY_append, Bool.or_eq_false_iff]
                  refine ⟨⟨⟨⟨yFree_pre _ _ hv.1.1, by decide⟩, ?_⟩, ?_⟩, by decide⟩
                  · apply strHasY_ite <;> decide
                  · refine ihF _ _ _ _ _ _ _ _ _ _ _ hh
                      (yFree_structFieldTyps _ hv.1.1) hv.2 ?_ heq2
                    omega
                · exact Option.noConfusion h
              · cases h
                simp only [strHasY_append, Bool.or_eq_false_iff]
                exact ⟨⟨yFree_pre _ _ hv.1.1, by decide⟩, by decide⟩
          · -- varr
            simp only [yFreeVal, Bool.and_eq_true] at hv
            refine ihS _ _ _ _ _ _ _ _ _ _ hh hv.2 ?_ ?_ h
            · refine yFree_pre _ _ ?_
              simp only [yFreeTyp, Bool.and_eq_true]
              exact hv.1
            · omega
          · -- vslice
            simp only [yFreeVal, Bool.and_eq_true] at hv
            split at h
            · cases h
              simp only [strHasY_append, Bool.or_eq_false_iff]
              refine ⟨?_, by decide⟩
              exact yFree_pre _ _ hv.1
            · split at h
              · cases h
                simp only [strHasY_append, Bool.or_eq_false_iff]
                refine ⟨?_, by decide⟩
                exact yFree_pre _ _ hv.1
              · refine ihS _ _ _ _ _ _ _ _ _ _ hh hv.2 ?_ ?_ h
                · exact yFree_pre _ _ hv.1
                · omega
          · -- vptr (some a)
            simp only [yFreeVal, Bool.and_eq_true] at hv
            split at h
            · exact Option.noConfusion h
            · rename_i e heq
              simp only [convertErrorStringObject, Bool.false_and, Bool.false_eq_true,
                if_false] at h
              split at h
              · rename_i s vis2 heq2
                cases h
                simp only [strHasY_append, Bool.or_eq_false_iff]
                refine ⟨by decide, ?_⟩
                refine ihV _ _ _ _ _ _ _ _ _ hh (yFreeHeap_lookup heap _ e hh heq) ?_ heq2
                omega
              · exact Option.noConfusion h
          · -- vptr none
            simp only [yFreeVal, Bool.and_eq_true] at hv
            cases h
            simp only [strHasY_append, Bool.or_eq_false_iff]
            exact ⟨⟨by decide, typStr_noY _ hv.1⟩, by decide⟩
          · -- viface (some e)
            simp only [yFreeVal, Bool.and_eq_true] at hv
            refine ihV _ _ _ _ _ _ _ _ _ hh hv.2 ?_ h
            omega
          · -- viface none
            cases h; decide
          · -- vinvalid
            cases h; decide
    · -- printSeqBody
      intro heap lazy t eT elems pre d vis out vis' hh he hpre hb h
      simp only [printSeqBody] at h
      split at h
      · cases h
        simp only [strHasY_append, Bool.or_eq_false_iff]
        exact ⟨⟨⟨hpre, by decide⟩, goQuoteBytes_noY _ (yFree_bytesOf _ he)⟩, by decide⟩
      · split at h
        · rename_i body vis2 heq
          cases h
          have hbody : strHasY body = false := by
            refine ihE _ _ _ _ _ _ _ _ _ _ _ hh he ?_ heq
            omega
          have hite : strHasY (if (!canInline t) = true then "\n" else "") = false := by
            apply strHasY_ite <;> decide
          apply strHasY_ite
          · simp only [strHasY_append, Bool.or_eq_false_iff]
            exact ⟨⟨⟨⟨⟨⟨⟨⟨hpre, by decide⟩, hite⟩, hbody⟩, by decide⟩, by decide⟩,
              by decide⟩, goQuoteBytes_noY _ (yFree_bytesOf _ he)⟩, by decide⟩
          · simp only [strHasY_append, Bool.or_eq_false_iff]
            exact ⟨⟨⟨⟨hpre, by decide⟩, hite⟩, hbody⟩, by decide⟩
        · exact Option.noConfusion h
    · -- printFields
      intro heap lazy tfs vfs ex i n d vis out vis' hh ht hf hb h
      simp only [printFields] at h
      split at h
      · cases h; decide
      · simp only [yFreeTfs, Bool.and_eq_true] at ht
        simp only [yFreeVals, Bool.and_eq_true] at hf
        split at h
        · refine ihF _ _ _ _ _ _ _ _ _ _ _ hh ht.2 hf.2 ?_ h
          omega
        · split at h
          · rename_i s vis1 heq1
            split at h
            · rename_i rs vis2 heq2
              cases h
              simp only [strHasY_append, Bool.or_eq_false_iff]
              refine ⟨⟨⟨?_, ?_⟩, yFree_sep ex i n⟩, ?_⟩
              · apply strHasY_ite
                · decide
                · simp only [strHasY_append, Bool.or_eq_false_iff]
                  refine ⟨⟨?_, by decide⟩, ?_⟩
                  · have h1 := ht.1.1
                    simp only [Bool.not_eq_true'] at h1
                    exact h1
                  · apply strHasY_ite <;> decide
              · refine ihV _ _ _ _ _ _ _ _ _ hh (yFree_getField _ hf.1) ?_ heq1
                omega
              · refine ihF _ _ _ _ _ _ _ _ _ _ _ hh ht.2 hf.2 ?_ heq2
                omega
            · exact Option.noConfusion h
          · exact Option.noConfusion h
      · exact Option.noConfusion h
    · -- printElems
      intro heap lazy elems eT ex i n d vis out vis' hh he hb h
      simp only [printElems] at h
      split at h
      · cases h; decide
      · simp only [yFreeVals, Bool.and_eq_true] at he
        split at h
        · rename_i s vis1 heq1
          split at h
          · rename_i rs vis2 heq2
            cases h
            simp only [strHasY_append, Bool.or_eq_false_iff]
            refine ⟨⟨?_, yFree_sep ex i n⟩, ?_⟩
            · refine ihV _ _ _ _ _ _ _ _ _ hh he.1 ?_ heq1
              omega
            · refine ihE _ _ _ _ _ _ _ _ _ _ _ hh he.2 ?_ heq2
              omega
          · exact Option.noConfusion h
        · exact Option.noConfusion h
    · -- printEntries
      intro heap lazy entries keys vT ex i n d vis out vis' hh he hk hb h
      simp only [printEntries] at h
      split at h
      · cases h; decide
      · simp only [yFreeVals, Bool.and_eq_true] at hk
        split at h
        · exact Option.noConfusion h
        · rename_i mv heq0
          split at h
          · rename_i ks vis1 heq1
            split at h
            · rename_i vs vis2 heq2
              split at h
              · rename_i rs vis3 heq3
                cases h
                simp only [strHasY_append, Bool.or_eq_false_iff]
                refine ⟨⟨⟨⟨⟨?_, by decide⟩, ?_⟩, ?_⟩, yFree_sep ex i n⟩, ?_⟩
                · refine ihV _ _ _ _ _ _ _ _ _ hh hk.1 ?_ heq1
                  omega
                · apply strHasY_ite <;> decide
                · refine ihV _ _ _ _ _ _ _ _ _ hh (yFree_mapIndex _ _ _ he heq0) ?_ heq2
                  omega
                · refine ihN _ _ _ _ _ _ _ _ _ _ _ _ hh he hk.2 ?_ heq3
                  omega
              · exact Option.noConfusion h
            · exact Option.noConfusion h
          · exact Option.noConfusion h

/-- Characters of a prefix are characters of the word. -/
theorem listPrefixOf_mem :
    ∀ (pat l : List Char), listPrefixOf pat l = true → ∀ c ∈ pat, c ∈ l := by
  intro pat
  induction pat with
  | nil => intro l _ c hc; simp at hc
  | cons a as ih =>
    intro l h c hc
    cases l with
    | nil => simp [listPrefixOf] at h
    | cons b bs =>
      simp only [listPrefixOf, Bool.and_eq_true, beq_iff_eq] at h
      rcases List.mem_cons.mp hc with rfl | hc
      · simp [h.1]
      · exact List.mem_cons_of_mem b (ih bs h.2 c hc)

/-- Characters of an infix are characters of the word. -/
theorem listInfixOf_mem :
    ∀ (pat hay : List Char), listInfixOf pat hay = true → ∀ c ∈ pat, c ∈ hay := by
  intro pat hay
  induction hay with
  | nil =>
    intro h c hc
    cases pat with
    | nil => simp at hc
    | cons p ps => simp [listInfixOf, listPrefixOf] at h
  | cons b bs ih =>
    intro h c hc
    simp only [listInfixOf, Bool.or_eq_true] at h
    rcases h with h | h
    · exact listPrefixOf_mem pat (b :: bs) h c hc
    · exact List.mem_cons_of_mem b (ih h c hc)

/-- The heap of the shared, acyclic record: cell 7 holds `p := &A{}`, a
record whose single pointer field is nil. -/
def sharedHeap : List (Nat × Val) :=
  [(7, .vstruct tA (some 7) noHooks [.vptr tAhead noHooks none])]

/-- The rendered value of `TestCycle`'s shared case: the Sequence
`[]*A{p, p}` of length 2 whose two elements are independent References
to the one shared record. -/
def sharedTop : Val :=
  .vslice (.tptr tA) false [.vptr tA noHooks (some 7), .vptr tA noHooks (some 7)]

/-- C2: a render that completes at depth 0 within fuel 40 — which covers
every Sequence of two independent References to one shared, acyclic,
shallow Record, and in particular the `[]*A{p, p}` of `TestCycle` —
never writes the marker "(CYCLIC REFERENCE)": revisiting an
already-visited (identity, type) pair at shallow depth is not flagged,
because the cyclic branch additionally requires depth above 40, and
depth grows by at most one per unit of fuel.  (The hypotheses exclude
the letter Y — which occurs in no output piece but the marker — from the
value's own strings, so a marker in the output could only come from the
cycle branch.) -/
theorem prettyC2_shared_reference_not_flagged :
    ∀ (heap : List (Nat × Val)) (v : Val) (out : String),
      yFreeHeap heap = true → yFreeVal v = true →
      renderTop 40 heap v = some out →
      containsS out "(CYCLIC REFERENCE)" = false := by
  intro heap v out hh hv hr
  simp only [renderTop] at hr
  cases he : printValue 40 heap false v true true 0 [] with
  | none => rw [he] at hr; simp at hr
  | some r =>
    obtain ⟨s, vis'⟩ := r
    rw [he] at hr
    simp only [Option.map_some'] at hr
    injection hr with hr
    subst hr
    have hY := (noYAll 40).1 heap false v true true 0 [] s vis' hh hv (by omega) he
    by_contra hc
    rw [Bool.not_eq_false] at hc
    have hmem : 'Y' ∈ s.data := listInfixOf_mem _ _ hc 'Y' (by decide)
    simp only [strHasY, decide_eq_false_iff_not] at hY
    exact hY hmem

/-- Witness for the C2 theorem at the test's concrete input: the
two-element Sequence of References to the one shared record renders
without any cycle marker. -/
theorem prettyC2_shared_reference_not_flagged_witness :
    containsS "[]*pretty.A\x7b\n&pretty.A\x7b\x7d,\n&pretty.A\x7b\x7d,\n\x7d"
      "(CYCLIC REFERENCE)" = false :=
  prettyC2_shared_reference_not_flagged sharedHeap sharedTop _ (by rfl) (by rfl) (by rfl)
end PrettyGo
